import Mathlib

/-!
# go-sqlite-server: write buffering, retention and size configuration

A verification development for `go-sqlite-server/main.go`.

* Strings are Go strings holding valid UTF-8, represented by Lean `String`
  (a list of code points); the functions of packages `strings`, `strconv`
  and `unicode` that `parseSize` calls are transcribed for base 10 / 64 bit.
* `int64` values are `Int` with an explicit wrap-around (`wrapInt64`).
* The handle `db`, the file system and the mutex `mu` are external: code that
  talks to them is a tree of operations (`Prog`) whose branches are indexed by
  the answers of the outside world.  The tree is run sequentially against an
  arbitrary `World`, or interleaved with another goroutine (`Step`).
-/

namespace GoSqliteServer

/-! ## Package `unicode` / `strings` -/

/-- Go `unicode.IsSpace`: the Latin-1 switch, then the `White_Space` table. -/
def IsSpace (r : Char) : Bool :=
  if r.toNat ≤ 0xFF then
    r.toNat = 0x09 || r.toNat = 0x0A || r.toNat = 0x0B || r.toNat = 0x0C || r.toNat = 0x0D
      || r.toNat = 0x20 || r.toNat = 0x85 || r.toNat = 0xA0
  else
    r.toNat = 0x1680 || (0x2000 ≤ r.toNat && r.toNat ≤ 0x200A) || r.toNat = 0x2028
      || r.toNat = 0x2029 || r.toNat = 0x202F || r.toNat = 0x205F || r.toNat = 0x3000

/-- Drop the leading runes that satisfy `unicode.IsSpace`. -/
def trimLeft : List Char → List Char
  | [] => []
  | c :: cs => if IsSpace c then trimLeft cs else c :: cs

/-- Go `strings.TrimSpace`: leading and trailing white space removed. -/
def TrimSpace (s : String) : String :=
  ⟨(trimLeft (trimLeft s.data).reverse).reverse⟩

/-- Go `unicode.ToUpper`: the ASCII fast path is explicit, the case table used for
runes above `MaxASCII` is the parameter `caseTable`. -/
def unicodeToUpper (caseTable : Char → Char) (r : Char) : Char :=
  if r.toNat ≤ 0x7F then
    if 'a'.toNat ≤ r.toNat ∧ r.toNat ≤ 'z'.toNat then Char.ofNat (r.toNat - ('a'.toNat - 'A'.toNat))
    else r
  else caseTable r

/-- Go `strings.ToUpper`: every rune mapped by `unicode.ToUpper`. -/
def ToUpper (caseTable : Char → Char) (s : String) : String :=
  ⟨s.data.map (unicodeToUpper caseTable)⟩

/-- Go `strings.HasSuffix`: `len(s) >= len(suffix) && s[len(s)-len(suffix):] == suffix`. -/
def HasSuffix (s suffix : String) : Bool :=
  suffix.data.length ≤ s.data.length &&
    s.data.drop (s.data.length - suffix.data.length) = suffix.data

/-- Go `strings.TrimSuffix`. -/
def TrimSuffix (s suffix : String) : String :=
  if HasSuffix s suffix then ⟨s.data.take (s.data.length - suffix.data.length)⟩ else s

/-! ## Package `strconv` -/

/-- The two errors of `strconv`: `ErrSyntax` and `ErrRange`. -/
inductive NumError
  | ErrSyntax
  | ErrRange
  deriving DecidableEq, Repr

/-- Reinterpret an integer as an `int64` (two's complement wrap-around). -/
def wrapInt64 (x : Int) : Int := (x + 2 ^ 63) % 2 ^ 64 - 2 ^ 63

/-- Largest `uint64`. -/
def maxUint64 : Nat := 2 ^ 64 - 1

/-- The digit loop of `strconv.ParseUint(s, 10, 64)`.  A rune that is not a decimal
digit is a syntax error with value 0; an overflow stops the loop at once with the
value `maxVal` and a range error. -/
def parseUintLoop : List Char → Nat → Nat × Option NumError
  | [], n => (n, none)
  | c :: cs, n =>
    if '0'.toNat ≤ c.toNat ∧ c.toNat ≤ '9'.toNat then
      let d := c.toNat - '0'.toNat
      if n ≥ maxUint64 / 10 + 1 then (maxUint64, some NumError.ErrRange)
      else
        let n10 := (n * 10) % 2 ^ 64
        let n1 := (n10 + d) % 2 ^ 64
        if n1 < n10 ∨ n1 > maxUint64 then (maxUint64, some NumError.ErrRange)
        else parseUintLoop cs n1
    else (0, some NumError.ErrSyntax)

/-- Go `strconv.ParseUint(s, 10, 64)`. -/
def ParseUint (s : String) : Nat × Option NumError :=
  if s.data = [] then (0, some NumError.ErrSyntax) else parseUintLoop s.data 0

/-- Go `strconv.ParseInt(s, 10, 64)`: optional sign, unsigned conversion, range check.
On a range error the value is the nearest `int64`, not 0. -/
def ParseInt (s : String) : Int × Option NumError :=
  match s.data with
  | [] => (0, some NumError.ErrSyntax)
  | c :: cs =>
    let neg : Bool := c = '-'
    let rest := if c = '+' ∨ c = '-' then cs else c :: cs
    match ParseUint ⟨rest⟩ with
    | (_, some NumError.ErrSyntax) => (0, some NumError.ErrSyntax)
    | (un, _) =>
      let cutoff : Nat := 2 ^ 63
      if neg = false ∧ un ≥ cutoff then (((cutoff - 1 : Nat) : Int), some NumError.ErrRange)
      else if neg = true ∧ un > cutoff then (-(cutoff : Int), some NumError.ErrRange)
      else
        let n := wrapInt64 un
        (if neg then wrapInt64 (-n) else n, none)

/-! ## `parseSize` and the start-up configuration of `main` -/

/-- Source `parseSize`: upper-case the trimmed text, strip a `GB`/`MB`/`KB`
suffix, parse what is left with the error dropped, multiply in `int64`. -/
def parseSize (caseTable : Char → Char) (s : String) : Int :=
  let s := ToUpper caseTable (TrimSpace s)
  let ms : Int × String :=
    if HasSuffix s "GB" then (1024 * 1024 * 1024, TrimSuffix s "GB")
    else if HasSuffix s "MB" then (1024 * 1024, TrimSuffix s "MB")
    else if HasSuffix s "KB" then (1024, TrimSuffix s "KB")
    else (1, s)
  let val := (ParseInt (TrimSpace ms.2)).1
  wrapInt64 (val * ms.1)

/-- Go `os.Getenv`: the value of the variable, empty when it is not set. -/
def Getenv (v : Option String) : String := v.getD ""

/-- Go `time.Hour` in nanoseconds. -/
def Hour : Int := 60 * 60 * 1000000000

/-- Source `main`, lines 60-65: the size limit in force after start-up. -/
def configSizeLimit (caseTable : Char → Char) (env : Option String) : Int :=
  let sl := Getenv env
  let sizeLimitBytes : Int := if sl ≠ "" then parseSize caseTable sl else 0
  if sizeLimitBytes = 0 then 1 * 1024 * 1024 * 1024 else sizeLimitBytes

/-- Source `main`, lines 53-58: the retention window in force after start-up.
`time.ParseDuration` is the parameter `parseDuration`; Go returns the duration 0
together with every error, which is what the discarded error leaves in
`cleanupInterval`. -/
def configCleanupInterval (parseDuration : String → Except String Int)
    (env : Option String) : Int :=
  let ci := Getenv env
  let cleanupInterval : Int :=
    if ci ≠ "" then
      match parseDuration ci with
      | Except.ok d => d
      | Except.error _ => 0
    else 0
  if cleanupInterval = 0 then 24 * Hour else cleanupInterval

/-! ## The outside world: `db`, `os`, `log` and the mutex `mu` -/

/-- A value bound to a statement: a Go `interface{}` holding a string. -/
inductive Arg
  | str (s : String)
  deriving DecidableEq, Repr

/-- Code that talks to the outside world.  Every node is one call; the continuation
of a call is indexed by what the call returns.
* `query`: `db.Query(sql)` followed by the `rows.Next()/rows.Scan` loop; the answer is
  the error, or for each row the string `Scan` leaves in the scanned name variable;
* `exec`: `db.Exec(sql, args...)`, answered by its error (`none` is `nil`);
* `stat`: `os.Stat(path)` followed by `Size()`, or the error;
* `lock`/`unlock`: `mu.Lock()`, `mu.Unlock()`; `log`: `log.Println`;
* `panic`: a run-time panic, which ends the goroutine (and the process). -/
inductive Prog (α : Type) : Type
  | ret (a : α)
  | panic (msg : String)
  | lock (k : Prog α)
  | unlock (k : Prog α)
  | log (msg : String) (k : Prog α)
  | query (sql : String) (k : Except String (List String) → Prog α)
  | exec (sql : String) (args : List Arg) (k : Option String → Prog α)
  | stat (path : String) (k : Except String Int → Prog α)

/-- Sequencing: run `p`, then `f` on its result; a panic skips `f`. -/
def Prog.bind {α β : Type} : Prog α → (α → Prog β) → Prog β
  | Prog.ret a, f => f a
  | Prog.panic msg, _ => Prog.panic msg
  | Prog.lock k, f => Prog.lock (k.bind f)
  | Prog.unlock k, f => Prog.unlock (k.bind f)
  | Prog.log msg k, f => Prog.log msg (k.bind f)
  | Prog.query sql k, f => Prog.query sql (fun r => (k r).bind f)
  | Prog.exec sql args k, f => Prog.exec sql args (fun r => (k r).bind f)
  | Prog.stat path k, f => Prog.stat path (fun r => (k r).bind f)

/-- The behaviour of the store and of the file system over a state `σ`. -/
structure World (σ : Type) where
  /-- Answer of `db.Query` and the state it leaves. -/
  Query : σ → String → σ × Except String (List String)
  /-- Answer of `db.Exec` and the state it leaves. -/
  Exec : σ → String → List Arg → σ × Option String
  /-- Answer of `os.Stat(path).Size()`. -/
  Stat : σ → String → Except String Int

/-- One observable call. -/
inductive Event
  | lock
  | unlock
  | log (msg : String)
  | query (sql : String)
  | exec (sql : String) (args : List Arg)
  | stat (path : String)
  deriving DecidableEq, Repr

/-- How a run ends. -/
inductive Outcome (α : Type)
  | done (a : α)
  | panicked (msg : String)
  deriving DecidableEq, Repr

/-- The result of a sequential run: final state, calls made in order, outcome. -/
structure Run (σ α : Type) where
  state : σ
  trace : List Event
  outcome : Outcome α

/-- Prepend a call to the trace of a run. -/
def Run.after {σ α : Type} (e : Event) (r : Run σ α) : Run σ α :=
  { r with trace := e :: r.trace }

/-- Sequential execution of a program against a world. -/
def Prog.run {σ α : Type} (w : World σ) : Prog α → σ → Run σ α
  | Prog.ret a, s => ⟨s, [], Outcome.done a⟩
  | Prog.panic msg, s => ⟨s, [], Outcome.panicked msg⟩
  | Prog.lock k, s => Run.after Event.lock (k.run w s)
  | Prog.unlock k, s => Run.after Event.unlock (k.run w s)
  | Prog.log msg k, s => Run.after (Event.log msg) (k.run w s)
  | Prog.query sql k, s =>
    Run.after (Event.query sql) ((k (w.Query s sql).2).run w (w.Query s sql).1)
  | Prog.exec sql args k, s =>
    Run.after (Event.exec sql args) ((k (w.Exec s sql args).2).run w (w.Exec s sql args).1)
  | Prog.stat path k, s => Run.after (Event.stat path) ((k (w.Stat s path)).run w s)

/-- The `db.Exec` calls of a trace, in order. -/
def execs : List Event → List (String × List Arg)
  | [] => []
  | Event.exec sql args :: es => (sql, args) :: execs es
  | _ :: es => execs es

/-- The `db.Query` calls of a trace, in order. -/
def queries : List Event → List String
  | [] => []
  | Event.query sql :: es => sql :: queries es
  | _ :: es => queries es

/-! ## Package `strings`, continued -/

/-- Go `strings.Repeat(s, count)` for `count ≥ 0`. -/
def Repeat (s : String) (count : Nat) : String :=
  ⟨(List.replicate count s.data).flatten⟩

/-- Go `strings.Join(elems, sep)`. -/
def Join : List String → String → String
  | [], _ => ""
  | e :: es, sep => es.foldl (fun b s => b ++ sep ++ s) e

/-- The slice expression `s[:hi]`; `none` is the run-time panic
"slice bounds out of range".  Lengths are counted in runes, which is the byte
length for the ASCII strings it is applied to. -/
def sliceTo (s : String) (hi : Int) : Option String :=
  if 0 ≤ hi ∧ hi ≤ s.data.length then some ⟨s.data.take hi.toNat⟩ else none

/-! ## `handleInsert`, `getTableColumns`, `convertToInterface`, `processInsertQueue` -/

/-- Source `getTableColumns`: the query, then the loop appending each scanned name. -/
def getTableColumns (table : String) : Prog (Except String (List String)) :=
  Prog.query ("PRAGMA table_info(" ++ table ++ ")") fun r =>
    match r with
    | Except.error err => Prog.ret (Except.error err)
    | Except.ok rows => Prog.ret (Except.ok (rows.foldl (fun cols name => cols ++ [name]) []))

/-- Source `convertToInterface`. -/
def convertToInterface : List String → List Arg
  | [] => []
  | v :: vals => Arg.str v :: convertToInterface vals

/-- The loop of `handleInsert` that leaves out the column `date`. -/
def colsWithoutDate (cols : List String) : List String :=
  cols.foldl (fun acc c => if c ≠ "date" then acc ++ [c] else acc) []

/-- The closure `handleInsert` pushes on `insertQueue` (source lines 127-158).
`defer mu.Unlock()` is the `unlock` on each way out, the panic of the slice
expression included. -/
def insertJob (table : String) (values : List String) : Prog Unit :=
  Prog.lock <|
    (getTableColumns table).bind fun r =>
      match r with
      | Except.error err => Prog.log ("Insert error: " ++ err) (Prog.unlock (Prog.ret ()))
      | Except.ok cols =>
        if values.length ≠ (colsWithoutDate cols).length then
          Prog.log "Value count mismatch for insert" (Prog.unlock (Prog.ret ()))
        else
          let placeholders := Repeat "?," values.length
          match sliceTo placeholders ((placeholders.data.length : Int) - 1) with
          | none => Prog.unlock (Prog.panic "slice bounds out of range [:-1]")
          | some placeholders =>
            let query := "INSERT INTO " ++ table ++ " (" ++ Join (colsWithoutDate cols) ","
              ++ ") VALUES (" ++ placeholders ++ ")"
            Prog.exec query (convertToInterface values) fun err =>
              match err with
              | some e => Prog.log ("Insert failed: " ++ e) (Prog.unlock (Prog.ret ()))
              | none => Prog.unlock (Prog.ret ())

/-- What an HTTP handler writes back. -/
structure Response where
  status : Nat
  body : String
  deriving DecidableEq, Repr

/-- Source `handleInsert`: the reply to the submitter and the job sent on
`insertQueue`, if any.  `table` is `Get("table")`, `values` is `Query()["val"]`. -/
def handleInsert (table : String) (values : List String) : Response × Option (Prog Unit) :=
  if table = "" ∨ values.length = 0 then (⟨400, "Missing table or values\n"⟩, none)
  else (⟨200, "Insert queued\n"⟩, some (insertJob table values))

/-- The jobs on `insertQueue` after the given requests were handled in this order:
a Go channel delivers in the order of the sends. -/
def enqueued : List (String × List String) → List (Prog Unit)
  | [] => []
  | r :: rs =>
    match (handleInsert r.1 r.2).2 with
    | some job => job :: enqueued rs
    | none => enqueued rs

/-- Source `processInsertQueue`: `for job := range insertQueue { job() }` over the
jobs received from the channel. -/
def processInsertQueue : List (Prog Unit) → Prog Unit
  | [] => Prog.ret ()
  | job :: rest => job.bind fun _ => processInsertQueue rest

/-! ## Package `time` and `float64` -/

/-- Round to the nearest integer, ties to even. -/
def roundHalfEven (y : ℚ) : ℤ :=
  let q := ⌊y⌋
  let f := y - q
  if f < 1 / 2 then q else if 1 / 2 < f then q + 1 else if q % 2 = 0 then q else q + 1

/-- The `float64` nearest to a rational (IEEE 754 binary64, round to nearest even,
53 bit significand), for values in the normal range, which conversions and
quotients of `int64` nanosecond counts stay in. -/
def float64 (x : ℚ) : ℚ :=
  if x = 0 then 0
  else
    let e := Int.log 2 |x|
    let ulp : ℚ := 2 ^ (e - 52)
    (if x < 0 then -1 else 1) * (roundHalfEven (|x| / ulp) : ℚ) * ulp

/-- Go `time.Second` in nanoseconds. -/
def Second : Int := 1000000000

/-- Go `Duration.Seconds`: `float64(d / Second) + float64(d % Second)/1e9`. -/
def Seconds (d : Int) : ℚ :=
  let sec := Int.tdiv d Second
  let nsec := Int.tmod d Second
  float64 (float64 sec + float64 (float64 nsec / 1000000000))

/-- The conversion `int(f)` of a `float64` in range: the fraction is discarded. -/
def truncToInt (f : ℚ) : Int := if 0 ≤ f then ⌊f⌋ else ⌈f⌉

/-! ## `scheduleCleanup` -/

/-- The global `dbPath`. -/
def dbPath : String := "data.db"

/-- The number interpolated in the retention predicate: `int(cleanupInterval.Seconds())`. -/
def retentionSeconds (cleanupInterval : Int) : Int := truncToInt (Seconds cleanupInterval)

/-- The statement of source line 261 for table `t`. -/
def deleteStmt (cleanupInterval : Int) (t : String) : String :=
  "DELETE FROM " ++ t ++ " WHERE date < datetime('now', '-"
    ++ toString (retentionSeconds cleanupInterval) ++ " seconds')"

/-- The loop `for tables.Next()` of `scheduleCleanup`: one delete per table name, its
result ignored, then the rest `k` of the cycle. -/
def deleteLoop (cleanupInterval : Int) : List String → Prog Unit → Prog Unit
  | [], k => k
  | t :: ts, k => Prog.exec (deleteStmt cleanupInterval t) [] fun _ => deleteLoop cleanupInterval ts k

/-- The size check that follows the sweep (source lines 265-271). -/
def sizeCheck (sizeLimitBytes : Int) : Prog Unit :=
  Prog.stat dbPath fun r =>
    match r with
    | Except.ok size =>
      if size > sizeLimitBytes then
        Prog.log "Database exceeded size limit, vacuuming..."
          (Prog.exec "VACUUM;" [] fun _ => Prog.unlock (Prog.ret ()))
      else Prog.unlock (Prog.ret ())
    | Except.error _ => Prog.unlock (Prog.ret ())

/-- One iteration of the loop of `scheduleCleanup`.  The error of the catalog query
is dropped, so on an error `tables` is nil and `tables.Next()` panics. -/
def cleanupCycle (cleanupInterval sizeLimitBytes : Int) : Prog Unit :=
  Prog.lock <| Prog.log "Running cleanup..." <|
    Prog.query "SELECT name FROM sqlite_master WHERE type='table'" fun r =>
      match r with
      | Except.error _ => Prog.panic "invalid memory address or nil pointer dereference"
      | Except.ok tables => deleteLoop cleanupInterval tables (sizeCheck sizeLimitBytes)

/-- Source `scheduleCleanup` over the given number of ticks. -/
def scheduleCleanup (cleanupInterval sizeLimitBytes : Int) : Nat → Prog Unit
  | 0 => Prog.ret ()
  | n + 1 => (cleanupCycle cleanupInterval sizeLimitBytes).bind fun _ =>
      scheduleCleanup cleanupInterval sizeLimitBytes n

/-! ## The store's reading of the retention statement -/

/-- A decimal digit rune, as a test. -/
def isDigitB (c : Char) : Bool := decide (48 ≤ c.toNat) && decide (c.toNat ≤ 57)

/-- The number a run of decimal digits denotes. -/
def decimalValue (ds : List Char) : Nat := ds.foldl (fun a c => 10 * a + (c.toNat - 48)) 0

/-- The text `l` without its ending `suf`, if it ends so. -/
def cutSuffix (l suf : List Char) : Option (List Char) :=
  if suf.length ≤ l.length ∧ l.drop (l.length - suf.length) = suf then
    some (l.take (l.length - suf.length))
  else none

/-- Modelled from the spec: the store's reading of the text of a retention statement,
"delete all rows whose timestamp column value is older than now minus the retention
window, expressed as a store-native relative-time comparison".  A statement is read
from its end: it must be `DELETE FROM <table> WHERE date < datetime('now', '-<K> seconds')`
with `<K>` a non-empty run of decimal digits, and the result is `K`; any other text
(another comparison, another column, a malformed modifier) is not a retention statement. -/
def retentionOf (sql : String) : Option Nat :=
  match cutSuffix sql.data " seconds')".data with
  | none => none
  | some body =>
    let digits := (body.reverse.takeWhile isDigitB).reverse
    let head := (body.reverse.dropWhile isDigitB).reverse
    match cutSuffix head " WHERE date < datetime('now', '-".data with
    | none => none
    | some front =>
      if front.take 12 = "DELETE FROM ".data ∧ digits ≠ [] then some (decimalValue digits)
      else none

/-- Modelled from the spec: whether the store, at time `now`, deletes a row stamped
`date` when it executes the statement `sql` (times in nanoseconds): the row is selected
when `date` is before `now` minus the `K` seconds of the statement.  `none` when `sql` is
not a retention statement. -/
def storeDeletes (sql : String) (now date : Int) : Option Bool :=
  match retentionOf sql with
  | none => none
  | some K => some (decide (date < now - (K : Int) * Second))

/-! ## Goroutines and the mutex `mu` -/

/-- A goroutine: the code it still has to run, and whether it is between a
`mu.Lock()` it has returned from and the `mu.Unlock()` that follows. -/
structure Goroutine where
  prog : Prog Unit
  inside : Bool

/-- The process: the store, the mutex `mu` (`true` is locked), the goroutine
`processInsertQueue` and the goroutine `scheduleCleanup`. -/
structure Sys (σ : Type) where
  db : σ
  mu : Bool
  worker : Goroutine
  cleaner : Goroutine

/-- One call of a goroutine.  `mu.Lock()` can only return when `mu` is unlocked;
`mu.Unlock()` of an unlocked mutex is fatal; after `ret` or `panic` nothing runs. -/
def stepGoroutine {σ : Type} (w : World σ) (db : σ) (mu : Bool) (g : Goroutine) :
    Option (σ × Bool × Goroutine) :=
  match g.prog with
  | Prog.ret _ => none
  | Prog.panic _ => none
  | Prog.lock k => if mu then none else some (db, true, ⟨k, true⟩)
  | Prog.unlock k => if mu then some (db, false, ⟨k, false⟩) else none
  | Prog.log _ k => some (db, mu, ⟨k, g.inside⟩)
  | Prog.query sql k => some ((w.Query db sql).1, mu, ⟨k (w.Query db sql).2, g.inside⟩)
  | Prog.exec sql args k =>
    some ((w.Exec db sql args).1, mu, ⟨k (w.Exec db sql args).2, g.inside⟩)
  | Prog.stat path k => some (db, mu, ⟨k (w.Stat db path), g.inside⟩)

/-- One step of the process: a call of the worker, a call of the cleaner, or any
change of the store by the HTTP handlers, which do not take `mu`. -/
inductive Step {σ : Type} (w : World σ) : Sys σ → Sys σ → Prop
  | worker (s : Sys σ) (db : σ) (mu : Bool) (g : Goroutine)
      (h : stepGoroutine w s.db s.mu s.worker = some (db, mu, g)) :
      Step w s ⟨db, mu, g, s.cleaner⟩
  | cleaner (s : Sys σ) (db : σ) (mu : Bool) (g : Goroutine)
      (h : stepGoroutine w s.db s.mu s.cleaner = some (db, mu, g)) :
      Step w s ⟨db, mu, s.worker, g⟩
  | handler (s : Sys σ) (db : σ) : Step w s ⟨db, s.mu, s.worker, s.cleaner⟩

/-- The process after `main` started both goroutines, with the jobs the worker will
receive and the number of ticks the cleaner will see. -/
def startSys {σ : Type} (db : σ) (reqs : List (String × List String))
    (cleanupInterval sizeLimitBytes : Int) (ticks : Nat) : Sys σ :=
  ⟨db, false, ⟨processInsertQueue (enqueued reqs), false⟩,
    ⟨scheduleCleanup cleanupInterval sizeLimitBytes ticks, false⟩⟩

/-- Whose turn it is in a schedule: the worker, the cleaner, or an HTTP handler that
leaves the store in the given state. -/
inductive Turn (σ : Type)
  | worker
  | cleaner
  | handler (db : σ)

/-- The process after one turn; a goroutine that cannot move (blocked on `mu`, returned
or dead) leaves the process as it is. -/
def advance {σ : Type} (w : World σ) (s : Sys σ) : Turn σ → Sys σ
  | Turn.worker =>
    match stepGoroutine w s.db s.mu s.worker with
    | some (db, mu, g) => ⟨db, mu, g, s.cleaner⟩
    | none => s
  | Turn.cleaner =>
    match stepGoroutine w s.db s.mu s.cleaner with
    | some (db, mu, g) => ⟨db, mu, s.worker, g⟩
    | none => s
  | Turn.handler db => ⟨db, s.mu, s.worker, s.cleaner⟩

/-- The process after a schedule of turns. -/
def runSchedule {σ : Type} (w : World σ) (s : Sys σ) (turns : List (Turn σ)) : Sys σ :=
  turns.foldl (advance w) s

/-- The next call of the program is a call on the store or on the file. -/
def Prog.touchesStore {α : Type} : Prog α → Bool
  | Prog.query _ _ => true
  | Prog.exec _ _ _ => true
  | Prog.stat _ _ => true
  | _ => false

/-- The program has returned. -/
def Prog.returned {α : Type} : Prog α → Bool
  | Prog.ret _ => true
  | _ => false

/-- Lock discipline of a piece of code entered with the mutex held or not: the store
is only touched with the mutex held, `Lock` is only called without and `Unlock`
only with it, and the code returns without it. -/
def Disciplined {α : Type} : Bool → Prog α → Prop
  | held, Prog.ret _ => held = false
  | _, Prog.panic _ => True
  | held, Prog.lock k => held = false ∧ Disciplined true k
  | held, Prog.unlock k => held = true ∧ Disciplined false k
  | held, Prog.log _ k => Disciplined held k
  | held, Prog.query _ k => held = true ∧ ∀ r, Disciplined held (k r)
  | held, Prog.exec _ _ k => held = true ∧ ∀ r, Disciplined held (k r)
  | held, Prog.stat _ k => held = true ∧ ∀ r, Disciplined held (k r)

/-! ## Size syntax -/

/-- The units of the size syntax. -/
inductive SizeUnit
  | B
  | KB
  | MB
  | GB
  deriving DecidableEq, Repr

/-- The text of a unit, in upper case. -/
def SizeUnit.suffix : SizeUnit → List Char
  | SizeUnit.B => []
  | SizeUnit.KB => ['K', 'B']
  | SizeUnit.MB => ['M', 'B']
  | SizeUnit.GB => ['G', 'B']

/-- The number of bytes of a unit. -/
def SizeUnit.multiplier : SizeUnit → Nat
  | SizeUnit.B => 1
  | SizeUnit.KB => 1024
  | SizeUnit.MB => 1024 ^ 2
  | SizeUnit.GB => 1024 ^ 3

/-- A decimal digit rune. -/
def isDigit (c : Char) : Prop := 48 ≤ c.toNat ∧ c.toNat ≤ 57

/-! ## Reference behaviour and sample worlds -/

/-- The schema lookup statement of a table. -/
def lookupStmt (table : String) : String := "PRAGMA table_info(" ++ table ++ ")"

/-- Reference behaviour of the queue: the calls made when each submitted job is run
exactly once, in the order of submission, each from the state the one before left. -/
def inSubmissionOrder {σ : Type} (w : World σ) : σ → List (String × List String) → List Event
  | _, [] => []
  | s, q :: qs =>
    ((insertJob q.1 q.2).run w s).trace
      ++ inSubmissionOrder w ((insertJob q.1 q.2).run w s).state qs

/-- The state the retention sweep leaves: the deletes applied in order. -/
def sweepState {σ : Type} (w : World σ) (cleanupInterval : Int) : σ → List String → σ
  | s, [] => s
  | s, t :: ts => sweepState w cleanupInterval (w.Exec s (deleteStmt cleanupInterval t) []).1 ts

/-- A store without state: every table has the columns `cols`, the catalog lists
`tables`, every statement succeeds and the file has `size` bytes. -/
def fixedWorld (cols tables : List String) (size : Int) : World Unit where
  Query := fun _ sql =>
    ((), Except.ok (if sql = "SELECT name FROM sqlite_master WHERE type='table'" then tables
      else cols))
  Exec := fun _ _ _ => ((), none)
  Stat := fun _ _ => Except.ok size

/-- The catalog enumeration statement of `scheduleCleanup`. -/
def catalogStmt : String := "SELECT name FROM sqlite_master WHERE type='table'"

/-- The compaction call of `scheduleCleanup`. -/
def vacuumCall : Event := Event.exec "VACUUM;" []

/-- The delete call of `scheduleCleanup` for one table. -/
def deleteCall (cleanupInterval : Int) (t : String) : Event :=
  Event.exec (deleteStmt cleanupInterval t) []

/-! ## Sequential runs -/

theorem run_bind {σ α β : Type} (w : World σ) (p : Prog α) (f : α → Prog β) (s : σ) :
    (p.bind f).run w s =
      match (p.run w s).outcome with
      | Outcome.done a =>
        ⟨((f a).run w (p.run w s).state).state,
          (p.run w s).trace ++ ((f a).run w (p.run w s).state).trace,
          ((f a).run w (p.run w s).state).outcome⟩
      | Outcome.panicked msg => ⟨(p.run w s).state, (p.run w s).trace, Outcome.panicked msg⟩ := by
  induction p generalizing s with
  | ret a => simp [Prog.bind, Prog.run]
  | panic msg => simp [Prog.bind, Prog.run]
  | lock k ih =>
    simp only [Prog.bind, Prog.run, Run.after, ih]
    cases (k.run w s).outcome <;> simp
  | unlock k ih =>
    simp only [Prog.bind, Prog.run, Run.after, ih]
    cases (k.run w s).outcome <;> simp
  | log msg k ih =>
    simp only [Prog.bind, Prog.run, Run.after, ih]
    cases (k.run w s).outcome <;> simp
  | query sql k ih =>
    simp only [Prog.bind, Prog.run, Run.after, ih]
    cases ((k (w.Query s sql).2).run w (w.Query s sql).1).outcome <;> simp
  | exec sql args k ih =>
    simp only [Prog.bind, Prog.run, Run.after, ih]
    cases ((k (w.Exec s sql args).2).run w (w.Exec s sql args).1).outcome <;> simp
  | stat path k ih =>
    simp only [Prog.bind, Prog.run, Run.after, ih]
    cases ((k (w.Stat s path)).run w s).outcome <;> simp

theorem foldl_snoc (rows : List String) (acc : List String) :
    rows.foldl (fun cols name => cols ++ [name]) acc = acc ++ rows := by
  induction rows generalizing acc with
  | nil => simp
  | cons r rs ih => simp [ih]

theorem colsWithoutDate_eq (cols : List String) :
    colsWithoutDate cols = cols.filter (fun c => c ≠ "date") := by
  have h : ∀ acc : List String,
      cols.foldl (fun acc c => if c ≠ "date" then acc ++ [c] else acc) acc
        = acc ++ cols.filter (fun c => c ≠ "date") := by
    induction cols with
    | nil => simp
    | cons c cs ih =>
      intro acc
      by_cases hc : c = "date"
      · rw [List.foldl_cons, if_neg (by simp [hc]), ih, List.filter_cons, if_neg (by simp [hc])]
      · rw [List.foldl_cons, if_pos hc, ih, List.filter_cons, if_pos (by simp [hc])]
        simp
  simpa [colsWithoutDate] using h []

theorem convertToInterface_eq (vals : List String) : convertToInterface vals = vals.map Arg.str := by
  induction vals with
  | nil => rfl
  | cons v vs ih => simp [convertToInterface, ih]

theorem take_repeat (n : Nat) :
    (List.replicate (n + 1) ['?', ',']).flatten.take (2 * n + 1)
      = '?' :: (List.replicate n [',', '?']).flatten := by
  induction n with
  | zero => rfl
  | succ n ih =>
    have e : 2 * (n + 1) + 1 = (2 * n + 1) + 2 := by ring
    rw [List.replicate_succ, List.flatten_cons, e]
    simp only [List.cons_append, List.nil_append, List.take_succ_cons]
    rw [ih]
    simp [List.replicate_succ]

theorem join_data (n : Nat) (b : String) :
    ((List.replicate n "?").foldl (fun b s => b ++ "," ++ s) b).data
      = b.data ++ (List.replicate n [',', '?']).flatten := by
  induction n generalizing b with
  | zero => simp
  | succ n ih =>
    rw [List.replicate_succ, List.foldl_cons, ih]
    simp [List.replicate_succ, String.data_append]

theorem length_repeat (n : Nat) : (Repeat "?," n).data.length = 2 * n := by
  unfold Repeat
  induction n with
  | zero => rfl
  | succ n ih =>
    rw [List.replicate_succ, List.flatten_cons, List.length_append, ih]
    simp; omega

theorem slice_placeholders (n : Nat) :
    sliceTo (Repeat "?," (n + 1)) (((Repeat "?," (n + 1)).data.length : Int) - 1)
      = some (Join (List.replicate (n + 1) "?") ",") := by
  rw [length_repeat]
  unfold sliceTo
  rw [if_pos (by rw [length_repeat]; omega)]
  congr 1
  apply String.ext
  have e : ((2 * (n + 1) : Nat) : Int) - 1 = ((2 * n + 1 : Nat) : Int) := by push_cast; ring
  rw [e, Int.toNat_ofNat]
  simp only [Repeat, Join, List.replicate_succ (n := n) (a := "?"), join_data]
  exact take_repeat n

theorem slice_placeholders_zero :
    sliceTo (Repeat "?," 0) (((Repeat "?," 0).data.length : Int) - 1) = none := by
  decide

theorem getTableColumns_outcome {σ : Type} (w : World σ) (s : σ) (table : String) :
    ((getTableColumns table).run w s).outcome = Outcome.done (w.Query s (lookupStmt table)).2 := by
  simp only [getTableColumns, Prog.run, Run.after, lookupStmt]
  cases h : (w.Query s ("PRAGMA table_info(" ++ table ++ ")")).2 with
  | error e => simp [Prog.run]
  | ok rows => simp [Prog.run, foldl_snoc]

theorem insertJob_run_error {σ : Type} (w : World σ) (s : σ) (table : String)
    (values : List String) (err : String)
    (hq : (w.Query s (lookupStmt table)).2 = Except.error err) :
    (insertJob table values).run w s =
      ⟨(w.Query s (lookupStmt table)).1,
        [Event.lock, Event.query (lookupStmt table), Event.log ("Insert error: " ++ err),
          Event.unlock], Outcome.done ()⟩ := by
  unfold lookupStmt at hq ⊢
  simp only [insertJob, getTableColumns, Prog.bind, Prog.run, Run.after, hq]

theorem insertJob_run_mismatch {σ : Type} (w : World σ) (s : σ) (table : String)
    (values cols : List String)
    (hq : (w.Query s (lookupStmt table)).2 = Except.ok cols)
    (hlen : values.length ≠ (cols.filter (fun c => c ≠ "date")).length) :
    (insertJob table values).run w s =
      ⟨(w.Query s (lookupStmt table)).1,
        [Event.lock, Event.query (lookupStmt table), Event.log "Value count mismatch for insert",
          Event.unlock], Outcome.done ()⟩ := by
  unfold lookupStmt at hq ⊢
  rw [← colsWithoutDate_eq] at hlen
  simp only [insertJob, getTableColumns, Prog.bind, Prog.run, Run.after, hq, foldl_snoc,
    List.nil_append, hlen, ne_eq, not_false_eq_true, if_true]

/-- The statement `insertJob` builds. -/
theorem insertJob_run_ok {σ : Type} (w : World σ) (s : σ) (table : String)
    (values cols : List String)
    (hq : (w.Query s (lookupStmt table)).2 = Except.ok cols)
    (hlen : values.length = (cols.filter (fun c => c ≠ "date")).length)
    (hne : values ≠ []) :
    ∃ tail : List Event, ∃ s' : σ,
    (tail = [Event.unlock] ∨ ∃ e, tail = [Event.log ("Insert failed: " ++ e), Event.unlock]) ∧
    (insertJob table values).run w s =
      ⟨s', [Event.lock, Event.query (lookupStmt table),
          Event.exec ("INSERT INTO " ++ table ++ " (" ++ Join (cols.filter (fun c => c ≠ "date")) ","
              ++ ") VALUES (" ++ Join (List.replicate values.length "?") "," ++ ")")
            (values.map Arg.str)] ++ tail, Outcome.done ()⟩ := by
  unfold lookupStmt at hq ⊢
  rw [← colsWithoutDate_eq] at hlen ⊢
  obtain ⟨n, hn⟩ : ∃ n, values.length = n + 1 :=
    ⟨values.length - 1, by have := List.length_pos.2 hne; omega⟩
  have hs := slice_placeholders n
  rw [← hn] at hs
  simp only [insertJob, getTableColumns, Prog.bind, Prog.run, Run.after, hq, foldl_snoc,
    List.nil_append, hlen, ne_eq, not_true_eq_false, if_false]
  rw [← hlen, hs]
  simp only [Prog.run, Run.after, convertToInterface_eq]
  cases h : (w.Exec (w.Query s ("PRAGMA table_info(" ++ table ++ ")")).1
      ("INSERT INTO " ++ table ++ " (" ++ Join (colsWithoutDate cols) "," ++ ") VALUES ("
        ++ Join (List.replicate values.length "?") "," ++ ")") (values.map Arg.str)).2 with
  | none => exact ⟨_, (w.Exec _ _ _).1, Or.inl rfl, by simp [Prog.run, Run.after]; rfl⟩
  | some e => exact ⟨_, (w.Exec _ _ _).1, Or.inr ⟨e, rfl⟩, by simp [Prog.run, Run.after]; rfl⟩

theorem insertJob_run_panic {σ : Type} (w : World σ) (s : σ) (table : String)
    (cols : List String)
    (hq : (w.Query s (lookupStmt table)).2 = Except.ok cols)
    (hlen : (cols.filter (fun c => c ≠ "date")).length = 0) :
    (insertJob table []).run w s =
      ⟨(w.Query s (lookupStmt table)).1,
        [Event.lock, Event.query (lookupStmt table), Event.unlock],
        Outcome.panicked "slice bounds out of range [:-1]"⟩ := by
  unfold lookupStmt at hq ⊢
  rw [← colsWithoutDate_eq] at hlen
  simp only [insertJob, getTableColumns, Prog.bind, Prog.run, Run.after, hq, foldl_snoc,
    List.nil_append, hlen, List.length_nil, ne_eq, not_true_eq_false, if_false,
    slice_placeholders_zero]

/-! ## The insert queue -/

theorem handleInsert_some (table : String) (values : List String) (resp : Response)
    (job : Prog Unit) (h : handleInsert table values = (resp, some job)) :
    table ≠ "" ∧ values ≠ [] ∧ job = insertJob table values ∧ resp = ⟨200, "Insert queued\n"⟩ := by
  unfold handleInsert at h
  split_ifs at h with hc
  · simp at h
  · simp only [Prod.mk.injEq, Option.some.injEq] at h
    push_neg at hc
    refine ⟨hc.1, ?_, h.2.symm, h.1.symm⟩
    intro hv
    exact hc.2 (by simp [hv])

theorem handleInsert_accepts (table : String) (values : List String)
    (h : ((handleInsert table values).2).isSome = true) :
    values ≠ [] ∧ (handleInsert table values).2 = some (insertJob table values) := by
  unfold handleInsert at h ⊢
  split_ifs at h ⊢ with hc
  · simp at h
  · push_neg at hc
    exact ⟨fun hv => hc.2 (by simp [hv]), rfl⟩

/-- What one run of an accepted job looks like, whatever the store answers. -/
theorem insertJob_summary {σ : Type} (w : World σ) (s : σ) (table : String)
    (values : List String) (hne : values ≠ []) :
    ((insertJob table values).run w s).outcome = Outcome.done () ∧
    queries ((insertJob table values).run w s).trace = [lookupStmt table] ∧
    ((insertJob table values).run w s).trace.count Event.lock = 1 ∧
    (execs ((insertJob table values).run w s).trace).length ≤ 1 := by
  cases hq : (w.Query s (lookupStmt table)).2 with
  | error err =>
    rw [insertJob_run_error w s table values err hq]
    simp [queries, execs]
  | ok cols =>
    by_cases hlen : values.length = (cols.filter (fun c => c ≠ "date")).length
    · obtain ⟨tail, s', ht, hr⟩ := insertJob_run_ok w s table values cols hq hlen hne
      rw [hr]
      rcases ht with rfl | ⟨e, rfl⟩ <;> simp [queries, execs]
    · rw [insertJob_run_mismatch w s table values cols hq hlen]
      simp [queries, execs]

theorem enqueued_eq (reqs : List (String × List String))
    (h : ∀ q ∈ reqs, ((handleInsert q.1 q.2).2).isSome = true) :
    enqueued reqs = reqs.map (fun q => insertJob q.1 q.2) := by
  induction reqs with
  | nil => rfl
  | cons q qs ih =>
    have hq := (handleInsert_accepts q.1 q.2 (h q (List.mem_cons_self _ _))).2
    simp only [enqueued, hq, List.map_cons]
    rw [ih (fun x hx => h x (List.mem_cons_of_mem _ hx))]

/-- Claim C1: the worker loop runs every job pushed on the insert queue exactly once and in
the order of submission, whether or not earlier jobs failed: it makes the calls of the jobs
run one after the other in that order, its schema lookups are those of the submitted jobs in
order, it takes the mutex once per job, and it gets through the whole queue. -/
theorem processInsertQueue_fifo {σ : Type} (w : World σ) (s : σ)
    (reqs : List (String × List String))
    (h : ∀ q ∈ reqs, ((handleInsert q.1 q.2).2).isSome = true) :
    ((processInsertQueue (enqueued reqs)).run w s).outcome = Outcome.done () ∧
    ((processInsertQueue (enqueued reqs)).run w s).trace = inSubmissionOrder w s reqs ∧
    queries ((processInsertQueue (enqueued reqs)).run w s).trace
      = reqs.map (fun q => lookupStmt q.1) ∧
    ((processInsertQueue (enqueued reqs)).run w s).trace.count Event.lock = reqs.length := by
  rw [enqueued_eq reqs h]
  induction reqs generalizing s with
  | nil => simp [processInsertQueue, Prog.run, inSubmissionOrder, queries]
  | cons q qs ih =>
    have hne := (handleInsert_accepts q.1 q.2 (h q (List.mem_cons_self _ _))).1
    obtain ⟨h1, h2, h3, _⟩ := insertJob_summary w s q.1 q.2 hne
    obtain ⟨i1, i2, i3, i4⟩ := ih ((insertJob q.1 q.2).run w s).state
      (fun x hx => h x (List.mem_cons_of_mem _ hx))
    have hqs : ∀ a b : List Event, queries (a ++ b) = queries a ++ queries b := by
      intro a b
      induction a with
      | nil => rfl
      | cons e es ihe => cases e <;> simp [queries, ihe]
    simp only [List.map_cons, processInsertQueue, run_bind, h1, inSubmissionOrder]
    refine ⟨i1, by rw [i2], ?_, ?_⟩
    · rw [hqs, h2, i3]; rfl
    · rw [List.count_append, h3, i4, List.length_cons]; omega

/-- Witness of C1: three submissions, the second of which fails its arity check. -/
theorem processInsertQueue_fifo_witness :
    queries ((processInsertQueue (enqueued [("a", ["1", "2"]), ("b", ["1"]), ("c", ["3", "4"])])).run
        (fixedWorld ["date", "x", "y"] [] 0) ()).trace
      = ["PRAGMA table_info(a)", "PRAGMA table_info(b)", "PRAGMA table_info(c)"] :=
  (processInsertQueue_fifo (fixedWorld ["date", "x", "y"] [] 0) ()
    [("a", ["1", "2"]), ("b", ["1"]), ("c", ["3", "4"])] (by decide)).2.2.1

/-- Claim C2: when the schema lookup of the table returns `cols` and the job carries as many
values as `cols` has entries other than "date", running the job issues exactly one insert:
its column list is `cols` without the "date" entries in the same order, its placeholder
list is one question mark per value separated by commas, and its bound arguments are the
values in order. -/
theorem insertJob_statement {σ : Type} (w : World σ) (s : σ) (table : String)
    (vals cols : List String) (resp : Response) (job : Prog Unit)
    (hjob : handleInsert table vals = (resp, some job))
    (hcols : ((getTableColumns table).run w s).outcome = Outcome.done (Except.ok cols))
    (hlen : vals.length = (cols.filter (fun c => c ≠ "date")).length) :
    execs (job.run w s).trace =
      [("INSERT INTO " ++ table ++ " (" ++ Join (cols.filter (fun c => c ≠ "date")) ","
          ++ ") VALUES (" ++ Join (List.replicate vals.length "?") "," ++ ")",
        vals.map Arg.str)] := by
  obtain ⟨_, hne, rfl, _⟩ := handleInsert_some table vals resp job hjob
  rw [getTableColumns_outcome] at hcols
  have hq : (w.Query s (lookupStmt table)).2 = Except.ok cols := by
    simpa using hcols
  obtain ⟨tail, s', ht, hr⟩ := insertJob_run_ok w s table vals cols hq hlen hne
  rw [hr]
  rcases ht with rfl | ⟨e, rfl⟩ <;> simp [execs]

/-- Witness of C2: columns date, user, action and values u1, click. -/
theorem insertJob_statement_witness :
    execs ((insertJob "events" ["u1", "click"]).run
        (fixedWorld ["date", "user", "action"] [] 0) ()).trace
      = [("INSERT INTO events (user,action) VALUES (?,?)", [Arg.str "u1", Arg.str "click"])] :=
  insertJob_statement (fixedWorld ["date", "user", "action"] [] 0) () "events" ["u1", "click"]
    ["date", "user", "action"] ⟨200, "Insert queued\n"⟩ (insertJob "events" ["u1", "click"])
    (by rfl) (by rfl) (by decide)

/-- Claim C3: a job calls the store's execute at most once; it calls it zero times when the
schema lookup returns an error and when the number of submitted values differs from the
number of columns other than "date", and then the job just ends; the submitter of an
accepted job has been answered "Insert queued" whatever the job does later. -/
theorem insertJob_at_most_once {σ : Type} (w : World σ) (s : σ) (table : String)
    (values : List String) :
    (execs ((insertJob table values).run w s).trace).length ≤ 1 ∧
    (∀ err, ((getTableColumns table).run w s).outcome = Outcome.done (Except.error err) →
      execs ((insertJob table values).run w s).trace = [] ∧
      ((insertJob table values).run w s).outcome = Outcome.done ()) ∧
    (∀ cols, ((getTableColumns table).run w s).outcome = Outcome.done (Except.ok cols) →
      values.length ≠ (cols.filter (fun c => c ≠ "date")).length →
      execs ((insertJob table values).run w s).trace = [] ∧
      ((insertJob table values).run w s).outcome = Outcome.done ()) ∧
    (∀ resp job, handleInsert table values = (resp, some job) →
      resp = ⟨200, "Insert queued\n"⟩) := by
  refine ⟨?_, ?_, ?_, ?_⟩
  · by_cases hne : values = []
    · subst hne
      cases hq : (w.Query s (lookupStmt table)).2 with
      | error err => rw [insertJob_run_error w s table [] err hq]; simp [execs]
      | ok cols =>
        by_cases hlen : ([] : List String).length = (cols.filter (fun c => c ≠ "date")).length
        · rw [insertJob_run_panic w s table cols hq hlen.symm]; simp [execs]
        · rw [insertJob_run_mismatch w s table [] cols hq hlen]; simp [execs]
    · exact (insertJob_summary w s table values hne).2.2.2
  · intro err herr
    rw [getTableColumns_outcome] at herr
    rw [insertJob_run_error w s table values err (by simpa using herr)]
    simp [execs]
  · intro cols hcols hlen
    rw [getTableColumns_outcome] at hcols
    rw [insertJob_run_mismatch w s table values cols (by simpa using hcols) hlen]
    simp [execs]
  · intro resp job h
    exact (handleInsert_some table values resp job h).2.2.2

/-- Witness of C3: three values against two columns other than the timestamp. -/
theorem insertJob_at_most_once_witness :
    execs ((insertJob "events" ["a", "b", "c"]).run
        (fixedWorld ["date", "user", "action"] [] 0) ()).trace = [] ∧
    ((insertJob "events" ["a", "b", "c"]).run
        (fixedWorld ["date", "user", "action"] [] 0) ()).outcome = Outcome.done () :=
  (insertJob_at_most_once (fixedWorld ["date", "user", "action"] [] 0) () "events"
    ["a", "b", "c"]).2.2.1 ["date", "user", "action"] (by rfl) (by decide)

/-- Claim C10: a job that `handleInsert` enqueues has a table name and at least one value,
so the slice `placeholders[:len(placeholders)-1]` is in range and leaves a non-empty text,
and the job never panics, whatever the schema; the body run with no value against a table
whose only column is "date" passes the arity check and panics on the slice at index -1. -/
theorem insertJob_slice_in_range {σ : Type} (w : World σ) (s : σ) (table : String)
    (values : List String) (resp : Response) (job : Prog Unit)
    (hjob : handleInsert table values = (resp, some job)) :
    table ≠ "" ∧ 1 ≤ values.length ∧
    (∃ p, sliceTo (Repeat "?," values.length) (((Repeat "?," values.length).data.length : Int) - 1)
        = some p ∧ p ≠ "") ∧
    (job.run w s).outcome = Outcome.done () ∧
    ((insertJob "t" []).run (fixedWorld ["date"] [] 0) ()).outcome
      = Outcome.panicked "slice bounds out of range [:-1]" := by
  obtain ⟨ht, hne, rfl, _⟩ := handleInsert_some table values resp job hjob
  have hpos : 1 ≤ values.length := List.length_pos.2 hne
  refine ⟨ht, hpos, ?_, (insertJob_summary w s table values hne).1, ?_⟩
  · obtain ⟨n, hn⟩ : ∃ n, values.length = n + 1 := ⟨values.length - 1, by omega⟩
    rw [hn, slice_placeholders n]
    refine ⟨_, rfl, ?_⟩
    intro h
    have := congrArg String.data h
    simp [Join, List.replicate_succ, join_data] at this
  · rw [insertJob_run_panic (fixedWorld ["date"] [] 0) () "t" ["date"] (by rfl) (by decide)]

/-- Witness of C10: the job of the request table=events, val=u1, val=click. -/
theorem insertJob_slice_in_range_witness :
    sliceTo (Repeat "?," 2) (((Repeat "?," 2).data.length : Int) - 1) = some "?,?" ∧
    ((insertJob "events" ["u1", "click"]).run (fixedWorld ["date", "user", "action"] [] 0)
      ()).outcome = Outcome.done () :=
  ⟨by decide, (insertJob_slice_in_range (fixedWorld ["date", "user", "action"] [] 0) () "events"
    ["u1", "click"] ⟨200, "Insert queued\n"⟩ (insertJob "events" ["u1", "click"])
    (by rfl)).2.2.2.1⟩

/-! ## The cleanup cycle -/

theorem deleteLoop_run {σ : Type} (w : World σ) (ci : Int) (ts : List String) (k : Prog Unit)
    (s : σ) :
    (deleteLoop ci ts k).run w s =
      ⟨(k.run w (sweepState w ci s ts)).state,
        ts.map (deleteCall ci) ++ (k.run w (sweepState w ci s ts)).trace,
        (k.run w (sweepState w ci s ts)).outcome⟩ := by
  induction ts generalizing s with
  | nil => simp [deleteLoop, sweepState]
  | cons t ts ih =>
    simp only [deleteLoop, Prog.run, Run.after, ih, sweepState, List.map_cons, List.cons_append,
      deleteCall]

theorem sizeCheck_run {σ : Type} (w : World σ) (sl : Int) (s : σ) :
    (sizeCheck sl).run w s =
      match w.Stat s dbPath with
      | Except.ok size =>
        if size > sl then
          ⟨(w.Exec s "VACUUM;" []).1,
            [Event.stat dbPath, Event.log "Database exceeded size limit, vacuuming...", vacuumCall,
              Event.unlock], Outcome.done ()⟩
        else ⟨s, [Event.stat dbPath, Event.unlock], Outcome.done ()⟩
      | Except.error _ => ⟨s, [Event.stat dbPath, Event.unlock], Outcome.done ()⟩ := by
  simp only [sizeCheck, Prog.run, Run.after]
  cases h : w.Stat s dbPath with
  | error e => simp [Prog.run, Run.after]
  | ok size =>
    by_cases hs : size > sl <;> simp [hs, Prog.run, Run.after, vacuumCall]

theorem cleanupCycle_run {σ : Type} (w : World σ) (ci sl : Int) (s : σ) (tables : List String)
    (hq : (w.Query s catalogStmt).2 = Except.ok tables) :
    (cleanupCycle ci sl).run w s =
      ⟨((sizeCheck sl).run w (sweepState w ci (w.Query s catalogStmt).1 tables)).state,
        [Event.lock, Event.log "Running cleanup...", Event.query catalogStmt]
          ++ tables.map (deleteCall ci)
          ++ ((sizeCheck sl).run w (sweepState w ci (w.Query s catalogStmt).1 tables)).trace,
        ((sizeCheck sl).run w (sweepState w ci (w.Query s catalogStmt).1 tables)).outcome⟩ := by
  unfold catalogStmt at hq ⊢
  simp only [cleanupCycle, Prog.run, Run.after, hq, deleteLoop_run, List.cons_append,
    List.nil_append, List.append_assoc]

theorem deleteStmt_ne_vacuum (ci : Int) (t : String) : deleteStmt ci t ≠ "VACUUM;" := by
  intro h
  have := congrArg String.data h
  simp [deleteStmt, String.data_append] at this

theorem count_vacuum_deletes (ci : Int) (ts : List String) :
    (ts.map (deleteCall ci)).count vacuumCall = 0 := by
  rw [List.count_eq_zero]
  intro h
  obtain ⟨t, _, ht⟩ := List.mem_map.1 h
  simp only [deleteCall, vacuumCall, Event.exec.injEq, and_true] at ht
  exact deleteStmt_ne_vacuum ci t ht

theorem execs_append (a b : List Event) : execs (a ++ b) = execs a ++ execs b := by
  induction a with
  | nil => rfl
  | cons e es ih => cases e <;> simp [execs, ih]

theorem execs_deletes (ci : Int) (ts : List String) :
    execs (ts.map (deleteCall ci)) = ts.map (fun t => (deleteStmt ci t, ([] : List Arg))) := by
  induction ts with
  | nil => rfl
  | cons t ts ih => simp [execs, deleteCall, ih] 

theorem sizeCheck_cases {σ : Type} (w : World σ) (sl : Int) (s : σ) :
    ((sizeCheck sl).run w s).outcome = Outcome.done () ∧
    ∃ rest, ((sizeCheck sl).run w s).trace = Event.stat dbPath :: rest ∧
      (rest = [Event.unlock] ∨
        rest = [Event.log "Database exceeded size limit, vacuuming...", vacuumCall,
          Event.unlock]) := by
  simp only [sizeCheck, Prog.run, Run.after]
  cases h : w.Stat s dbPath with
  | error e => simp [Prog.run, Run.after]
  | ok size => by_cases hs : size > sl <;> simp [hs, Prog.run, Run.after, vacuumCall]

theorem cleanupCycle_deletes {σ : Type} (w : World σ) (ci sl : Int) (s : σ)
    (tables : List String) (hq : (w.Query s catalogStmt).2 = Except.ok tables) :
    (execs ((cleanupCycle ci sl).run w s).trace).filter (fun c => c.1 ≠ "VACUUM;")
      = tables.map (fun t => (deleteStmt ci t, ([] : List Arg))) := by
  rw [cleanupCycle_run w ci sl s tables hq]
  obtain ⟨_, rest, hr, hrest⟩ :=
    sizeCheck_cases w sl (sweepState w ci (w.Query s catalogStmt).1 tables)
  simp only [hr, execs_append, execs_deletes, List.filter_append]
  have h1 : (tables.map (fun t => (deleteStmt ci t, ([] : List Arg)))).filter
      (fun c => c.1 ≠ "VACUUM;") = tables.map (fun t => (deleteStmt ci t, ([] : List Arg))) := by
    rw [List.filter_eq_self]
    intro c hc
    obtain ⟨t, _, rfl⟩ := List.mem_map.1 hc
    simpa using deleteStmt_ne_vacuum ci t
  rw [h1]
  rcases hrest with rfl | rfl <;> simp [execs, vacuumCall]

/-- Claim C6: for every list of table names the catalog enumeration returns and every way
the deletes succeed or fail, a cleanup cycle issues exactly one delete per enumerated
table, in enumeration order, and then makes the size check: after taking the mutex and
the catalog query its calls are the deletes of the tables in order, then the stat of the
store file, then either the unlock alone or the compaction and the unlock. -/
theorem cleanupCycle_every_table {σ : Type} (w : World σ) (s : σ)
    (cleanupInterval sizeLimitBytes : Int) (tables : List String)
    (hq : (w.Query s catalogStmt).2 = Except.ok tables) :
    ((cleanupCycle cleanupInterval sizeLimitBytes).run w s).outcome = Outcome.done () ∧
    ∃ rest, ((cleanupCycle cleanupInterval sizeLimitBytes).run w s).trace =
        [Event.lock, Event.log "Running cleanup...", Event.query catalogStmt]
          ++ tables.map (deleteCall cleanupInterval) ++ Event.stat dbPath :: rest ∧
      (rest = [Event.unlock] ∨
        rest = [Event.log "Database exceeded size limit, vacuuming...", vacuumCall,
          Event.unlock]) := by
  rw [cleanupCycle_run w cleanupInterval sizeLimitBytes s tables hq]
  obtain ⟨ho, rest, hr, hrest⟩ :=
    sizeCheck_cases w sizeLimitBytes (sweepState w cleanupInterval (w.Query s catalogStmt).1 tables)
  exact ⟨ho, rest, by simp only [hr], hrest⟩

/-- Witness of C6: a catalog of three tables. -/
theorem cleanupCycle_every_table_witness :
    ∃ rest, ((cleanupCycle (24 * Hour) 100).run (fixedWorld [] ["a", "b", "c"] 5) ()).trace =
        [Event.lock, Event.log "Running cleanup...", Event.query catalogStmt]
          ++ ["a", "b", "c"].map (deleteCall (24 * Hour)) ++ Event.stat dbPath :: rest ∧
      (rest = [Event.unlock] ∨
        rest = [Event.log "Database exceeded size limit, vacuuming...", vacuumCall,
          Event.unlock]) :=
  (cleanupCycle_every_table (fixedWorld [] ["a", "b", "c"] 5) () (24 * Hour) 100 ["a", "b", "c"]
    (by rfl)).2

/-- Claim C5: in a cleanup cycle whose sweep is followed by a stat that reports `size`
bytes, the compaction is called exactly once when `size` exceeds the limit and not at all
when it does not; and the deletes issued are the same in every world with the same
catalog, whatever the compaction (or any other statement) answers. -/
theorem cleanupCycle_compaction {σ : Type} (w : World σ) (s : σ)
    (cleanupInterval sizeLimitBytes : Int) (tables : List String) (size : Int)
    (hq : (w.Query s catalogStmt).2 = Except.ok tables)
    (hsize : w.Stat (sweepState w cleanupInterval (w.Query s catalogStmt).1 tables) dbPath
      = Except.ok size) :
    (sizeLimitBytes < size →
      ((cleanupCycle cleanupInterval sizeLimitBytes).run w s).trace.count vacuumCall = 1) ∧
    (size ≤ sizeLimitBytes →
      ((cleanupCycle cleanupInterval sizeLimitBytes).run w s).trace.count vacuumCall = 0) ∧
    (∀ w' : World σ, (w'.Query s catalogStmt).2 = Except.ok tables →
      (execs ((cleanupCycle cleanupInterval sizeLimitBytes).run w' s).trace).filter
          (fun c => c.1 ≠ "VACUUM;")
        = (execs ((cleanupCycle cleanupInterval sizeLimitBytes).run w s).trace).filter
          (fun c => c.1 ≠ "VACUUM;")) := by
  have hv : vacuumCall ≠ Event.lock ∧ vacuumCall ≠ Event.unlock ∧
      vacuumCall ≠ Event.stat dbPath ∧ vacuumCall ≠ Event.query catalogStmt ∧
      (∀ m, vacuumCall ≠ Event.log m) := by
    simp [vacuumCall]
  obtain ⟨v1, v2, v3, v4, v5⟩ := hv
  refine ⟨?_, ?_, ?_⟩
  · intro h
    rw [cleanupCycle_run w cleanupInterval sizeLimitBytes s tables hq, sizeCheck_run, hsize]
    simp only [gt_iff_lt, h, if_true, List.count_append, count_vacuum_deletes]
    simp [List.count_cons, v1, v2, v3, v4, v5]
  · intro h
    rw [cleanupCycle_run w cleanupInterval sizeLimitBytes s tables hq, sizeCheck_run, hsize]
    simp only [gt_iff_lt, not_lt.2 h, if_false, List.count_append, count_vacuum_deletes]
    simp [List.count_cons, v1, v2, v3, v4, v5]
  · intro w' hq'
    rw [cleanupCycle_deletes w' cleanupInterval sizeLimitBytes s tables hq',
      cleanupCycle_deletes w cleanupInterval sizeLimitBytes s tables hq]

/-- Witness of C5: two tables and a file of 200 bytes against a limit of 100 bytes. -/
theorem cleanupCycle_compaction_witness :
    ((cleanupCycle (24 * Hour) 100).run (fixedWorld [] ["a", "b"] 200) ()).trace.count vacuumCall
      = 1 :=
  (cleanupCycle_compaction (fixedWorld [] ["a", "b"] 200) () (24 * Hour) 100 ["a", "b"] 200
    (by rfl) (by rfl)).1 (by decide)

/-! ## Mutual exclusion -/

theorem disciplined_bind {α β : Type} (p : Prog α) (f : α → Prog β) (held : Bool)
    (hp : Disciplined held p) (hf : ∀ a, Disciplined false (f a)) :
    Disciplined held (p.bind f) := by
  induction p generalizing held with
  | ret a => simp only [Disciplined] at hp; subst hp; exact hf a
  | panic msg => simp [Prog.bind, Disciplined]
  | lock k ih => exact ⟨hp.1, ih true hp.2⟩
  | unlock k ih => exact ⟨hp.1, ih false hp.2⟩
  | log msg k ih => exact ih held hp
  | query sql k ih => exact ⟨hp.1, fun r => ih r held (hp.2 r)⟩
  | exec sql args k ih => exact ⟨hp.1, fun r => ih r held (hp.2 r)⟩
  | stat path k ih => exact ⟨hp.1, fun r => ih r held (hp.2 r)⟩

theorem disciplined_insertJob (table : String) (values : List String) :
    Disciplined false (insertJob table values) := by
  unfold insertJob getTableColumns
  refine ⟨rfl, rfl, ?_⟩
  intro r
  cases r with
  | error err => simp [Prog.bind, Disciplined]
  | ok rows =>
    simp only [Prog.bind]
    split_ifs with hlen
    · simp [Disciplined]
    · split
      · simp [Disciplined]
      · refine ⟨rfl, ?_⟩
        intro e
        cases e <;> simp [Disciplined]

theorem disciplined_enqueued (reqs : List (String × List String)) :
    ∀ job ∈ enqueued reqs, Disciplined false job := by
  induction reqs with
  | nil => simp [enqueued]
  | cons q qs ih =>
    intro job hjob
    unfold enqueued at hjob
    unfold handleInsert at hjob
    split_ifs at hjob with hc
    · exact ih job hjob
    · simp only [List.mem_cons] at hjob
      rcases hjob with rfl | h
      · exact disciplined_insertJob _ _
      · exact ih job h

theorem disciplined_processInsertQueue (jobs : List (Prog Unit))
    (h : ∀ job ∈ jobs, Disciplined false job) : Disciplined false (processInsertQueue jobs) := by
  induction jobs with
  | nil => simp [processInsertQueue, Disciplined]
  | cons j js ih =>
    exact disciplined_bind j _ false (h j (List.mem_cons_self _ _))
      (fun _ => ih (fun x hx => h x (List.mem_cons_of_mem _ hx)))

theorem disciplined_deleteLoop (ci : Int) (ts : List String) (k : Prog Unit)
    (hk : Disciplined true k) : Disciplined true (deleteLoop ci ts k) := by
  induction ts with
  | nil => exact hk
  | cons t ts ih => exact ⟨rfl, fun _ => ih⟩

theorem disciplined_sizeCheck (sl : Int) : Disciplined true (sizeCheck sl) := by
  refine ⟨rfl, ?_⟩
  intro r
  cases r with
  | error e => simp [Disciplined]
  | ok size =>
    by_cases hs : size > sl <;> simp [hs, Disciplined]

theorem disciplined_cleanupCycle (ci sl : Int) : Disciplined false (cleanupCycle ci sl) := by
  refine ⟨rfl, rfl, ?_⟩
  intro r
  cases r with
  | error e => simp [Disciplined]
  | ok tables => exact disciplined_deleteLoop ci tables _ (disciplined_sizeCheck sl)

theorem disciplined_scheduleCleanup (ci sl : Int) (n : Nat) :
    Disciplined false (scheduleCleanup ci sl n) := by
  induction n with
  | zero => simp [scheduleCleanup, Disciplined]
  | succ n ih => exact disciplined_bind _ _ false (disciplined_cleanupCycle ci sl) (fun _ => ih)

/-- One call of a disciplined goroutine keeps it disciplined, keeps `mu` equal to
"somebody is inside", and never brings it inside while the other one is. -/
theorem stepGoroutine_inv {σ : Type} (w : World σ) (db db' : σ) (mu mu' : Bool)
    (g g' : Goroutine) (other : Bool)
    (hg : Disciplined g.inside g.prog) (hmu : mu = (g.inside || other))
    (hex : ¬(g.inside = true ∧ other = true))
    (hstep : stepGoroutine w db mu g = some (db', mu', g')) :
    Disciplined g'.inside g'.prog ∧ mu' = (g'.inside || other) ∧
      ¬(g'.inside = true ∧ other = true) := by
  obtain ⟨prog, inside⟩ := g
  simp only at hg hmu hex
  cases prog with
  | ret a => simp [stepGoroutine] at hstep
  | panic msg => simp [stepGoroutine] at hstep
  | lock k =>
    simp only [stepGoroutine] at hstep
    split_ifs at hstep with hm
    simp only [Option.some.injEq, Prod.mk.injEq] at hstep
    obtain ⟨_, rfl, rfl⟩ := hstep
    obtain ⟨h1, h2⟩ := hg
    subst h1
    have : other = false := by
      cases other <;> simp_all
    subst this
    exact ⟨h2, by simp, by simp⟩
  | unlock k =>
    simp only [stepGoroutine] at hstep
    split_ifs at hstep with hm
    simp only [Option.some.injEq, Prod.mk.injEq] at hstep
    obtain ⟨_, rfl, rfl⟩ := hstep
    obtain ⟨h1, h2⟩ := hg
    subst h1
    have : other = false := by
      cases other <;> simp_all
    subst this
    exact ⟨h2, by simp, by simp⟩
  | log msg k =>
    simp only [stepGoroutine, Option.some.injEq, Prod.mk.injEq] at hstep
    obtain ⟨_, rfl, rfl⟩ := hstep
    exact ⟨hg, hmu, hex⟩
  | query sql k =>
    simp only [stepGoroutine, Option.some.injEq, Prod.mk.injEq] at hstep
    obtain ⟨_, rfl, rfl⟩ := hstep
    exact ⟨hg.2 _, hmu, hex⟩
  | exec sql args k =>
    simp only [stepGoroutine, Option.some.injEq, Prod.mk.injEq] at hstep
    obtain ⟨_, rfl, rfl⟩ := hstep
    exact ⟨hg.2 _, hmu, hex⟩
  | stat path k =>
    simp only [stepGoroutine, Option.some.injEq, Prod.mk.injEq] at hstep
    obtain ⟨_, rfl, rfl⟩ := hstep
    exact ⟨hg.2 _, hmu, hex⟩

/-- The invariant of the process. -/
theorem reachable_inv {σ : Type} (w : World σ) (s₀ s : Sys σ)
    (h₀ : Disciplined s₀.worker.inside s₀.worker.prog ∧
      Disciplined s₀.cleaner.inside s₀.cleaner.prog ∧
      s₀.mu = (s₀.worker.inside || s₀.cleaner.inside) ∧
      ¬(s₀.worker.inside = true ∧ s₀.cleaner.inside = true))
    (hs : Relation.ReflTransGen (Step w) s₀ s) :
    Disciplined s.worker.inside s.worker.prog ∧
      Disciplined s.cleaner.inside s.cleaner.prog ∧
      s.mu = (s.worker.inside || s.cleaner.inside) ∧
      ¬(s.worker.inside = true ∧ s.cleaner.inside = true) := by
  induction hs with
  | refl => exact h₀
  | tail _ hstep ih =>
    obtain ⟨i1, i2, i3, i4⟩ := ih
    cases hstep with
    | worker db mu g h =>
      obtain ⟨j1, j2, j3⟩ := stepGoroutine_inv w _ db _ mu _ g _ i1 i3 i4 h
      exact ⟨j1, i2, j2, j3⟩
    | cleaner db mu g h =>
      obtain ⟨j1, j2, j3⟩ := stepGoroutine_inv w _ db _ mu _ g _ i2
        (by rw [i3, Bool.or_comm]) (fun hh => i4 ⟨hh.2, hh.1⟩) h
      exact ⟨i1, j1, by rw [j2, Bool.or_comm], fun hh => j3 ⟨hh.2, hh.1⟩⟩
    | handler db => exact ⟨i1, i2, i3, i4⟩

theorem disciplined_touches {α : Type} (held : Bool) (p : Prog α) (h : Disciplined held p)
    (ht : p.touchesStore = true) : held = true := by
  cases p <;> simp [Prog.touchesStore] at ht <;> exact h.1

theorem disciplined_returned {α : Type} (held : Bool) (p : Prog α) (h : Disciplined held p)
    (ht : p.returned = true) : held = false := by
  cases p <;> simp [Prog.returned] at ht
  exact h

/-- On each of its ways out a job takes the mutex first, gives it back last, and does
each exactly once. -/
theorem insertJob_brackets {σ : Type} (w : World σ) (s : σ) (table : String)
    (values : List String) :
    ((insertJob table values).run w s).trace.head? = some Event.lock ∧
    ((insertJob table values).run w s).trace.getLast? = some Event.unlock ∧
    ((insertJob table values).run w s).trace.count Event.lock = 1 ∧
    ((insertJob table values).run w s).trace.count Event.unlock = 1 := by
  cases hq : (w.Query s (lookupStmt table)).2 with
  | error err =>
    rw [insertJob_run_error w s table values err hq]
    simp
  | ok cols =>
    by_cases hlen : values.length = (cols.filter (fun c => c ≠ "date")).length
    · by_cases hne : values = []
      · subst hne
        rw [insertJob_run_panic w s table cols hq hlen.symm]
        simp
      · obtain ⟨tail, s', ht, hr⟩ := insertJob_run_ok w s table values cols hq hlen hne
        rw [hr]
        rcases ht with rfl | ⟨e, rfl⟩ <;> simp
    · rw [insertJob_run_mismatch w s table values cols hq hlen]
      simp

theorem advance_reachable {σ : Type} (w : World σ) (s : Sys σ) (t : Turn σ) :
    Relation.ReflTransGen (Step w) s (advance w s t) := by
  cases t with
  | worker =>
    unfold advance
    cases h : stepGoroutine w s.db s.mu s.worker with
    | none => exact Relation.ReflTransGen.refl
    | some r =>
      obtain ⟨db, mu, g⟩ := r
      exact Relation.ReflTransGen.single (Step.worker s db mu g h)
  | cleaner =>
    unfold advance
    cases h : stepGoroutine w s.db s.mu s.cleaner with
    | none => exact Relation.ReflTransGen.refl
    | some r =>
      obtain ⟨db, mu, g⟩ := r
      exact Relation.ReflTransGen.single (Step.cleaner s db mu g h)
  | handler db => exact Relation.ReflTransGen.single (Step.handler s db)

theorem runSchedule_reachable {σ : Type} (w : World σ) (s : Sys σ) (turns : List (Turn σ)) :
    Relation.ReflTransGen (Step w) s (runSchedule w s turns) := by
  induction turns generalizing s with
  | nil => exact Relation.ReflTransGen.refl
  | cons t ts ih => exact Relation.ReflTransGen.trans (advance_reachable w s t) (ih (advance w s t))

/-- Claim C9: in every interleaving of the queue worker, the cleanup scheduler and the
HTTP handlers, a job and a cleanup cycle are never both inside their critical section;
each touches the store only while it holds the mutex, and has given it back when it
returns; and on every way out (lookup failure, arity mismatch, failed or successful
insert, panic) a job locks first, unlocks last and does each once. -/
theorem mutex_excludes_job_and_cleanup {σ : Type} (w : World σ) (db : σ)
    (reqs : List (String × List String)) (cleanupInterval sizeLimitBytes : Int) (ticks : Nat)
    (s : Sys σ)
    (hs : Relation.ReflTransGen (Step w)
      (startSys db reqs cleanupInterval sizeLimitBytes ticks) s) :
    ¬(s.worker.inside = true ∧ s.cleaner.inside = true) ∧
    (s.worker.prog.touchesStore = true → s.worker.inside = true ∧ s.mu = true) ∧
    (s.cleaner.prog.touchesStore = true → s.cleaner.inside = true ∧ s.mu = true) ∧
    (s.worker.prog.returned = true → s.worker.inside = false) ∧
    (s.cleaner.prog.returned = true → s.cleaner.inside = false) ∧
    (∀ (table : String) (values : List String) (s' : σ),
      ((insertJob table values).run w s').trace.head? = some Event.lock ∧
      ((insertJob table values).run w s').trace.getLast? = some Event.unlock ∧
      ((insertJob table values).run w s').trace.count Event.lock = 1 ∧
      ((insertJob table values).run w s').trace.count Event.unlock = 1) := by
  obtain ⟨i1, i2, i3, i4⟩ := reachable_inv w _ s
    ⟨disciplined_processInsertQueue _ (disciplined_enqueued reqs),
      disciplined_scheduleCleanup cleanupInterval sizeLimitBytes ticks, rfl, by simp [startSys]⟩ hs
  refine ⟨i4, ?_, ?_, ?_, ?_, ?_⟩
  · intro ht
    have := disciplined_touches _ _ i1 ht
    exact ⟨this, by rw [i3, this]; rfl⟩
  · intro ht
    have := disciplined_touches _ _ i2 ht
    exact ⟨this, by rw [i3, this]; simp⟩
  · exact disciplined_returned _ _ i1
  · exact disciplined_returned _ _ i2
  · intro table values s'
    exact insertJob_brackets w s' table values

/-- Witness of C9: two jobs and two ticks.  The worker locks, looks the schema up and
inserts while the cleaner tries in vain to lock; a handler touches the store; the worker
unlocks; the cleaner locks, and now the worker tries in vain to lock for its second job
while the cleaner logs, reads the catalog and deletes.  In the state reached the cleaner
is inside and about to touch the store; earlier, after the fourth turn, the worker was
inside and the cleaner outside. -/
theorem mutex_excludes_job_and_cleanup_witness :
    ¬((runSchedule (fixedWorld ["date", "user", "action"] ["events"] 5)
          (startSys () [("events", ["u1", "click"]), ("events", ["u2", "view"])] (24 * Hour) 100 2)
          [Turn.worker, Turn.worker, Turn.cleaner, Turn.worker, Turn.handler (), Turn.worker,
            Turn.cleaner, Turn.worker, Turn.cleaner, Turn.cleaner, Turn.cleaner]).worker.inside
          = true ∧
        (runSchedule (fixedWorld ["date", "user", "action"] ["events"] 5)
          (startSys () [("events", ["u1", "click"]), ("events", ["u2", "view"])] (24 * Hour) 100 2)
          [Turn.worker, Turn.worker, Turn.cleaner, Turn.worker, Turn.handler (), Turn.worker,
            Turn.cleaner, Turn.worker, Turn.cleaner, Turn.cleaner, Turn.cleaner]).cleaner.inside
          = true) ∧
      (runSchedule (fixedWorld ["date", "user", "action"] ["events"] 5)
          (startSys () [("events", ["u1", "click"]), ("events", ["u2", "view"])] (24 * Hour) 100 2)
          [Turn.worker, Turn.worker, Turn.cleaner, Turn.worker, Turn.handler (), Turn.worker,
            Turn.cleaner, Turn.worker, Turn.cleaner, Turn.cleaner, Turn.cleaner]).cleaner.inside
        = true ∧
      (runSchedule (fixedWorld ["date", "user", "action"] ["events"] 5)
          (startSys () [("events", ["u1", "click"]), ("events", ["u2", "view"])] (24 * Hour) 100 2)
          [Turn.worker, Turn.worker, Turn.cleaner, Turn.worker, Turn.handler (), Turn.worker,
            Turn.cleaner, Turn.worker, Turn.cleaner, Turn.cleaner, Turn.cleaner]).cleaner.prog.touchesStore
        = true ∧
      (runSchedule (fixedWorld ["date", "user", "action"] ["events"] 5)
          (startSys () [("events", ["u1", "click"]), ("events", ["u2", "view"])] (24 * Hour) 100 2)
          [Turn.worker, Turn.worker, Turn.cleaner, Turn.worker]).worker.inside = true ∧
      (runSchedule (fixedWorld ["date", "user", "action"] ["events"] 5)
          (startSys () [("events", ["u1", "click"]), ("events", ["u2", "view"])] (24 * Hour) 100 2)
          [Turn.worker, Turn.worker, Turn.cleaner, Turn.worker]).cleaner.inside = false :=
  ⟨(mutex_excludes_job_and_cleanup (fixedWorld ["date", "user", "action"] ["events"] 5) ()
      [("events", ["u1", "click"]), ("events", ["u2", "view"])] (24 * Hour) 100 2 _
      (runSchedule_reachable _ _ _)).1, by rfl, by rfl, by rfl, by rfl⟩

/-! ## `parseSize` on well-formed sizes -/

theorem toDigitsCore_app : ∀ (n f f' : Nat) (ds : List Char), n < f → n < f' →
    Nat.toDigitsCore 10 f n ds = Nat.toDigitsCore 10 f' n [] ++ ds := by
  intro n
  induction n using Nat.strong_induction_on with
  | _ n ih =>
    intro f f' ds hf hf'
    obtain ⟨g, rfl⟩ : ∃ g, f = g + 1 := ⟨f - 1, by omega⟩
    obtain ⟨g', rfl⟩ : ∃ g', f' = g' + 1 := ⟨f' - 1, by omega⟩
    simp only [Nat.toDigitsCore]
    by_cases h0 : n / 10 = 0
    · simp [h0]
    · simp only [h0, if_false]
      have hlt : n / 10 < n := by omega
      rw [ih (n / 10) hlt g g' _ (by omega) (by omega),
        ih (n / 10) hlt g' g' [Nat.digitChar (n % 10)] (by omega) (by omega)]
      simp

theorem toDigits_small (n : Nat) (h : n < 10) : Nat.toDigits 10 n = [Nat.digitChar n] := by
  simp [Nat.toDigits, Nat.toDigitsCore, Nat.div_eq_of_lt h, Nat.mod_eq_of_lt h]

theorem toDigits_big (n : Nat) (h : 10 ≤ n) :
    Nat.toDigits 10 n = Nat.toDigits 10 (n / 10) ++ [Nat.digitChar (n % 10)] := by
  have h0 : n / 10 ≠ 0 := by omega
  simp only [Nat.toDigits, Nat.toDigitsCore, h0, if_false]
  exact toDigitsCore_app (n / 10) n (n / 10 + 1) _ (by omega) (by omega)

theorem digitChar_toNat (d : Nat) (h : d < 10) : (Nat.digitChar d).toNat = 48 + d := by
  interval_cases d <;> rfl

theorem parseUintLoop_append : ∀ (l l2 : List Char) (acc m : Nat),
    parseUintLoop l acc = (m, none) → parseUintLoop (l ++ l2) acc = parseUintLoop l2 m := by
  intro l
  induction l with
  | nil =>
    intro l2 acc m h
    simp only [parseUintLoop, Prod.mk.injEq, and_true] at h
    simp [h]
  | cons c cs ih =>
    intro l2 acc m h
    simp only [List.cons_append, parseUintLoop] at h ⊢
    split_ifs at h ⊢ with h1 h2 h3
    · simp at h
    · simp at h
    · exact ih l2 _ m h
    · simp at h

theorem parseUintLoop_digit (a d : Nat) (hd : d < 10) (h : a * 10 + d < 2 ^ 64) :
    parseUintLoop [Nat.digitChar d] a = (a * 10 + d, none) := by
  have h0 : '0'.toNat = 48 := rfl
  have h9 : '9'.toNat = 57 := rfl
  have hc := digitChar_toNat d hd
  have hm : maxUint64 = 18446744073709551615 := rfl
  simp only [parseUintLoop, h0, h9, hc, hm]
  rw [if_pos (by omega), if_neg (by omega)]
  have e1 : a * 10 % 2 ^ 64 = a * 10 := Nat.mod_eq_of_lt (by omega)
  have e2 : (a * 10 + (48 + d - 48)) % 2 ^ 64 = a * 10 + d := by
    rw [Nat.mod_eq_of_lt (by omega)]; omega
  simp only [e1, e2]
  rw [if_neg (by omega)]

theorem toDigits_spec : ∀ n : Nat,
    Nat.toDigits 10 n ≠ [] ∧ (∀ c ∈ Nat.toDigits 10 n, isDigit c) ∧
    (n < 2 ^ 64 → parseUintLoop (Nat.toDigits 10 n) 0 = (n, none)) := by
  intro n
  induction n using Nat.strong_induction_on with
  | _ n ih =>
    by_cases hn : n < 10
    · rw [toDigits_small n hn]
      refine ⟨by simp, ?_, ?_⟩
      · intro c hc
        simp only [List.mem_singleton] at hc
        subst hc
        unfold isDigit
        rw [digitChar_toNat n hn]; omega
      · intro _
        have := parseUintLoop_digit 0 n hn (by omega)
        simpa using this
    · have hn10 : 10 ≤ n := by omega
      rw [toDigits_big n hn10]
      obtain ⟨_, h2, h3⟩ := ih (n / 10) (by omega)
      refine ⟨by simp, ?_, ?_⟩
      · intro c hc
        rcases List.mem_append.1 hc with hc | hc
        · exact h2 c hc
        · simp only [List.mem_singleton] at hc
          subst hc
          unfold isDigit
          rw [digitChar_toNat _ (Nat.mod_lt _ (by decide))]; omega
      · intro hlt
        rw [parseUintLoop_append _ _ 0 (n / 10) (h3 (by omega)),
          parseUintLoop_digit _ _ (Nat.mod_lt _ (by decide)) (by omega)]
        congr 1
        omega

theorem trimLeft_spaces (ws l : List Char) (h : ∀ c ∈ ws, IsSpace c = true) :
    trimLeft (ws ++ l) = trimLeft l := by
  induction ws with
  | nil => rfl
  | cons c cs ih =>
    have hc : IsSpace c = true := h c (List.mem_cons_self _ _)
    simp only [List.cons_append, trimLeft, hc, if_true]
    exact ih (fun x hx => h x (List.mem_cons_of_mem _ hx))

theorem trimLeft_cons (c : Char) (l : List Char) (h : IsSpace c = false) :
    trimLeft (c :: l) = c :: l := by
  simp [trimLeft, h]

theorem trimSpace_core (pre post core : List Char) (a b : Char)
    (hpre : ∀ c ∈ pre, IsSpace c = true) (hpost : ∀ c ∈ post, IsSpace c = true)
    (ha : IsSpace a = false) (hb : IsSpace b = false) :
    TrimSpace ⟨pre ++ (a :: core ++ [b]) ++ post⟩ = ⟨a :: core ++ [b]⟩ := by
  unfold TrimSpace
  simp only [List.append_assoc]
  rw [trimLeft_spaces _ _ hpre, List.cons_append, trimLeft_cons _ _ ha]
  have : (a :: (core ++ ([b] ++ post))).reverse = post.reverse ++ (b :: (a :: core).reverse) := by
    simp
  rw [this, trimLeft_spaces _ _ (by simpa using hpost), trimLeft_cons _ _ hb]
  simp

theorem isDigit_not_space (c : Char) (h : isDigit c) : IsSpace c = false := by
  unfold isDigit at h
  unfold IsSpace
  rw [if_pos (by omega)]
  simp
  omega

theorem isDigit_upper (T : Char → Char) (c : Char) (h : isDigit c) : unicodeToUpper T c = c := by
  unfold isDigit at h
  unfold unicodeToUpper
  have ha : 'a'.toNat = 97 := rfl
  rw [if_pos (by omega), if_neg (by rw [ha]; omega)]

theorem space_upper (T : Char → Char) (hT : ∀ c, IsSpace c = true → T c = c) (c : Char)
    (h : IsSpace c = true) : unicodeToUpper T c = c := by
  unfold unicodeToUpper
  have ha : 'a'.toNat = 97 := rfl
  have hz : 'z'.toNat = 122 := rfl
  by_cases h1 : c.toNat ≤ 0x7F
  · rw [if_pos h1, if_neg]
    rw [ha, hz]
    intro h2
    unfold IsSpace at h
    rw [if_pos (by omega)] at h
    simp at h
    omega
  · rw [if_neg h1]; exact hT c h

theorem trimLeft_fix (l : List Char) (h : ∀ c, l.head? = some c → IsSpace c = false) :
    trimLeft l = l := by
  cases l with
  | nil => rfl
  | cons c cs => exact trimLeft_cons c cs (h c rfl)

theorem trimSpace_of (pre post core : List Char)
    (hpre : ∀ c ∈ pre, IsSpace c = true) (hpost : ∀ c ∈ post, IsSpace c = true)
    (h1 : ∀ c, core.head? = some c → IsSpace c = false)
    (h2 : ∀ c, core.reverse.head? = some c → IsSpace c = false) (hne : core ≠ []) :
    TrimSpace ⟨pre ++ core ++ post⟩ = ⟨core⟩ := by
  unfold TrimSpace
  simp only [List.append_assoc]
  rw [trimLeft_spaces _ _ hpre]
  have e : trimLeft (core ++ post) = core ++ post := by
    cases core with
    | nil => exact absurd rfl hne
    | cons a t => exact trimLeft_cons a _ (h1 a rfl)
  rw [e, List.reverse_append, trimLeft_spaces _ _ (by simpa using hpost), trimLeft_fix _ h2,
    List.reverse_reverse]

theorem hasSuffix_append (x s t : List Char) (h : s.length = t.length) :
    HasSuffix ⟨x ++ s⟩ ⟨t⟩ = decide (s = t) := by
  unfold HasSuffix
  simp [h]

theorem trimSuffix_append (x s : List Char) : TrimSuffix ⟨x ++ s⟩ ⟨s⟩ = ⟨x⟩ := by
  unfold TrimSuffix
  rw [hasSuffix_append x s s rfl]
  simp

theorem hasSuffix_mem (s t : String) (h : HasSuffix s t = true) : ∀ c ∈ t.data, c ∈ s.data := by
  unfold HasSuffix at h
  simp only [Bool.and_eq_true, decide_eq_true_eq] at h
  intro c hc
  rw [← h.2] at hc
  exact List.mem_of_mem_drop hc

theorem wrapInt64_id (x : Int) (h1 : -2 ^ 63 ≤ x) (h2 : x < 2 ^ 63) : wrapInt64 x = x := by
  unfold wrapInt64
  rw [Int.emod_eq_of_lt (by omega) (by omega)]
  omega

theorem parseInt_digits (n : Nat) (h : n < 2 ^ 63) :
    ParseInt ⟨Nat.toDigits 10 n⟩ = ((n : Int), none) := by
  obtain ⟨hne, hdig, hparse⟩ := toDigits_spec n
  have hp := hparse (by omega)
  unfold ParseInt
  cases hD : Nat.toDigits 10 n with
  | nil => exact absurd hD hne
  | cons c cs =>
    have hc : isDigit c := hdig c (by rw [hD]; exact List.mem_cons_self _ _)
    unfold isDigit at hc
    have hplus : c ≠ '+' := by
      intro e; rw [e] at hc; revert hc; decide
    have hminus : c ≠ '-' := by
      intro e; rw [e] at hc; revert hc; decide
    rw [hD] at hp
    simp only [hplus, hminus, or_self, if_false, ParseUint, decide_False]
    simp only [List.cons_ne_nil, if_false, hp]
    have hw := wrapInt64_id (n : Int) (by omega) (by omega)
    simp [hw]
    omega

theorem letter_upper (T : Char → Char) (c C : Char) (h : c.toUpper = C)
    (hC : 65 ≤ C.toNat ∧ C.toNat ≤ 90) : unicodeToUpper T c = C ∧ IsSpace c = false := by
  have ha : 'a'.toNat = 97 := rfl
  have hz : 'z'.toNat = 122 := rfl
  have hA : 'A'.toNat = 65 := rfl
  unfold Char.toUpper at h
  simp only at h
  unfold unicodeToUpper IsSpace
  rw [ha, hz, hA]
  by_cases hr : c.toNat ≥ 97 ∧ c.toNat ≤ 122
  · rw [if_pos hr] at h
    rw [if_pos (by omega), if_pos (by omega), if_pos (by omega)]
    refine ⟨h, ?_⟩
    simp
    omega
  · rw [if_neg hr] at h
    subst h
    rw [if_pos (by omega), if_neg (by omega), if_pos (by omega)]
    refine ⟨rfl, ?_⟩
    simp
    omega

theorem digits_head (n : Nat) (l : List Char) :
    ∀ c, (Nat.toDigits 10 n ++ l).head? = some c → IsSpace c = false := by
  obtain ⟨hne, hdig, _⟩ := toDigits_spec n
  intro c hc
  cases hD : Nat.toDigits 10 n with
  | nil => exact absurd hD hne
  | cons a t =>
    rw [hD] at hc
    simp only [List.cons_append, List.head?_cons, Option.some.injEq] at hc
    subst hc
    exact isDigit_not_space _ (hdig _ (by rw [hD]; exact List.mem_cons_self _ _))

theorem digits_last (n : Nat) :
    ∀ c, (Nat.toDigits 10 n).reverse.head? = some c → IsSpace c = false := by
  obtain ⟨_, hdig, _⟩ := toDigits_spec n
  intro c hc
  exact isDigit_not_space _ (hdig c (List.mem_reverse.1 (List.mem_of_mem_head? hc)))

theorem trim_digits_spaces (n : Nat) (pre post : List Char)
    (hpre : ∀ c ∈ pre, IsSpace c = true) (hpost : ∀ c ∈ post, IsSpace c = true) :
    TrimSpace ⟨pre ++ Nat.toDigits 10 n ++ post⟩ = ⟨Nat.toDigits 10 n⟩ := by
  apply trimSpace_of pre post _ hpre hpost
  · simpa using digits_head n []
  · exact digits_last n
  · exact (toDigits_spec n).1

theorem upper_digits (T : Char → Char) (n : Nat) :
    (Nat.toDigits 10 n).map (unicodeToUpper T) = Nat.toDigits 10 n := by
  obtain ⟨_, hdig, _⟩ := toDigits_spec n
  conv_rhs => rw [← List.map_id (Nat.toDigits 10 n)]
  exact List.map_congr_left (fun c hc => isDigit_upper T c (hdig c hc))

theorem upper_spaces (T : Char → Char) (hT : ∀ c, IsSpace c = true → T c = c) (ws : List Char)
    (h : ∀ c ∈ ws, IsSpace c = true) : ws.map (unicodeToUpper T) = ws := by
  conv_rhs => rw [← List.map_id ws]
  exact List.map_congr_left (fun c hc => space_upper T hT c (h c hc))

theorem upper_trim_unit (T : Char → Char) (hT : ∀ c, IsSpace c = true → T c = c) (n : Nat)
    (pre mid post : List Char) (x y X Y : Char)
    (hpre : ∀ c ∈ pre, IsSpace c = true) (hmid : ∀ c ∈ mid, IsSpace c = true)
    (hpost : ∀ c ∈ post, IsSpace c = true)
    (hx : x.toUpper = X) (hy : y.toUpper = Y)
    (hX : 65 ≤ X.toNat ∧ X.toNat ≤ 90) (hY : 65 ≤ Y.toNat ∧ Y.toNat ≤ 90) :
    ToUpper T (TrimSpace ⟨pre ++ Nat.toDigits 10 n ++ mid ++ [x, y] ++ post⟩)
      = ⟨(Nat.toDigits 10 n ++ mid) ++ [X, Y]⟩ := by
  obtain ⟨hx1, _⟩ := letter_upper T x X hx hX
  obtain ⟨hy1, hy2⟩ := letter_upper T y Y hy hY
  have e : pre ++ Nat.toDigits 10 n ++ mid ++ [x, y] ++ post
      = pre ++ (Nat.toDigits 10 n ++ (mid ++ [x, y])) ++ post := by simp
  rw [e, trimSpace_of pre post _ hpre hpost (digits_head n _)
    (by intro c hc; simp at hc; rw [← hc]; exact hy2) (by simp [(toDigits_spec n).1])]
  unfold ToUpper
  simp only [List.map_append, upper_digits, upper_spaces T hT mid hmid, List.map_cons,
    List.map_nil, hx1, hy1, List.append_assoc]

theorem parseSize_unit_tail (n : Nat) (mid : List Char) (m : Nat)
    (hmid : ∀ c ∈ mid, IsSpace c = true) (hfit : n * m < 2 ^ 63) (hm : 0 < m) :
    wrapInt64 ((ParseInt (TrimSpace ⟨Nat.toDigits 10 n ++ mid⟩)).1 * (m : Int)) = ((n * m : Nat) : Int) := by
  have := trim_digits_spaces n [] mid (by simp) hmid
  simp only [List.nil_append] at this
  have hn : n < 2 ^ 63 := lt_of_le_of_lt (Nat.le_mul_of_pos_right n hm) hfit
  rw [this, parseInt_digits n hn]
  simp only
  have h0 : (0 : Int) ≤ (n : Int) * (m : Int) := by positivity
  have h1 : (n : Int) * (m : Int) < 2 ^ 63 := by exact_mod_cast hfit
  rw [wrapInt64_id _ (by omega) h1]
  push_cast; rfl

theorem map_eq_pair (f : Char → Char) (v : List Char) (X Y : Char) (h : v.map f = [X, Y]) :
    ∃ x y, v = [x, y] ∧ f x = X ∧ f y = Y := by
  match v, h with
  | [x, y], h =>
    simp only [List.map_cons, List.map_nil, List.cons.injEq, and_true] at h
    exact ⟨x, y, rfl, h.1, h.2⟩

theorem parseSize_unit_case (T : Char → Char) (hT : ∀ c, IsSpace c = true → T c = c) (n : Nat)
    (pre mid post v : List Char) (X Y : Char) (m : Nat)
    (hpre : ∀ c ∈ pre, IsSpace c = true) (hmid : ∀ c ∈ mid, IsSpace c = true)
    (hpost : ∀ c ∈ post, IsSpace c = true)
    (hv : v.map Char.toUpper = [X, Y])
    (hX : 65 ≤ X.toNat ∧ X.toNat ≤ 90) (hY : 65 ≤ Y.toNat ∧ Y.toNat ≤ 90)
    (hfit : n * m < 2 ^ 63) (hm : 0 < m)
    (hsel : ∀ w : List Char,
      (if HasSuffix ⟨w ++ [X, Y]⟩ "GB" then
          ((1024 * 1024 * 1024 : Int), TrimSuffix ⟨w ++ [X, Y]⟩ "GB")
        else if HasSuffix ⟨w ++ [X, Y]⟩ "MB" then (1024 * 1024, TrimSuffix ⟨w ++ [X, Y]⟩ "MB")
        else if HasSuffix ⟨w ++ [X, Y]⟩ "KB" then (1024, TrimSuffix ⟨w ++ [X, Y]⟩ "KB")
        else (1, ⟨w ++ [X, Y]⟩)) = ((m : Int), ⟨w⟩)) :
    parseSize T ⟨pre ++ Nat.toDigits 10 n ++ mid ++ v ++ post⟩ = ((n * m : Nat) : Int) := by
  obtain ⟨x, y, rfl, hx, hy⟩ := map_eq_pair _ v X Y hv
  simp only [parseSize]
  rw [upper_trim_unit T hT n pre mid post x y X Y hpre hmid hpost hx hy hX hY, hsel]
  exact parseSize_unit_tail n mid m hmid hfit hm

theorem unit_select (w : List Char) (X Y : Char) :
    HasSuffix ⟨w ++ [X, Y]⟩ "GB" = decide ([X, Y] = ['G', 'B']) ∧
    HasSuffix ⟨w ++ [X, Y]⟩ "MB" = decide ([X, Y] = ['M', 'B']) ∧
    HasSuffix ⟨w ++ [X, Y]⟩ "KB" = decide ([X, Y] = ['K', 'B']) :=
  ⟨hasSuffix_append w _ _ rfl, hasSuffix_append w _ _ rfl, hasSuffix_append w _ _ rfl⟩

/-- Claim C8: for every natural number `n` and unit (none, KB, MB, GB) whose product with the
unit's multiplier (1, 1024, 1024^2, 1024^3) fits a signed 64-bit integer, `parseSize` of
the decimal rendering of `n` followed by the unit, the unit in any letter case, with any
white space around and between number and unit, is `n` times the multiplier.  White space
is what `unicode.IsSpace` accepts; the case table is assumed to leave it alone. -/
theorem parseSize_decimal_unit (caseTable : Char → Char)
    (hcase : ∀ c, IsSpace c = true → caseTable c = c)
    (n : Nat) (u : SizeUnit) (pre mid post v : List Char)
    (hpre : ∀ c ∈ pre, IsSpace c = true) (hmid : ∀ c ∈ mid, IsSpace c = true)
    (hpost : ∀ c ∈ post, IsSpace c = true)
    (hv : v.map Char.toUpper = u.suffix)
    (hfit : n * u.multiplier < 2 ^ 63) :
    parseSize caseTable ⟨pre ++ (Nat.repr n).data ++ mid ++ v ++ post⟩
      = ((n * u.multiplier : Nat) : Int) := by
  have hrepr : (Nat.repr n).data = Nat.toDigits 10 n := rfl
  rw [hrepr]
  cases u with
  | B =>
    simp only [SizeUnit.suffix, List.map_eq_nil_iff] at hv
    subst hv
    have e : pre ++ Nat.toDigits 10 n ++ mid ++ [] ++ post
        = pre ++ Nat.toDigits 10 n ++ (mid ++ post) := by simp
    have hD : ∀ t : Char, (65 ≤ t.toNat ∧ t.toNat ≤ 90) → ∀ a, HasSuffix ⟨Nat.toDigits 10 n⟩ ⟨[a, t]⟩ = false := by
      intro t ht a
      by_contra hcon
      have hmem := hasSuffix_mem _ _ (by simpa using hcon) t (by simp)
      have := (toDigits_spec n).2.1 t hmem
      unfold isDigit at this
      omega
    have hB : (65 ≤ 'B'.toNat ∧ 'B'.toNat ≤ 90) := by decide
    have h1 : HasSuffix ⟨Nat.toDigits 10 n⟩ "GB" = false := hD 'B' hB 'G'
    have h2 : HasSuffix ⟨Nat.toDigits 10 n⟩ "MB" = false := hD 'B' hB 'M'
    have h3 : HasSuffix ⟨Nat.toDigits 10 n⟩ "KB" = false := hD 'B' hB 'K'
    simp only [parseSize]
    rw [e, trim_digits_spaces n pre (mid ++ post) hpre
      (by intro c hc; rcases List.mem_append.1 hc with h | h; exact hmid c h; exact hpost c h)]
    have hU : ToUpper caseTable ⟨Nat.toDigits 10 n⟩ = ⟨Nat.toDigits 10 n⟩ := by
      unfold ToUpper; simp only [upper_digits]
    rw [hU, h1, h2, h3]
    simp only [Bool.false_eq_true, if_false]
    have := parseSize_unit_tail n [] 1 (by simp) (by simpa [SizeUnit.multiplier] using hfit)
      (by decide)
    simpa [SizeUnit.multiplier] using this
  | KB =>
    refine parseSize_unit_case caseTable hcase n pre mid post v 'K' 'B' 1024 hpre hmid hpost hv
      (by decide) (by decide) hfit (by decide) ?_
    intro w
    obtain ⟨h1, h2, h3⟩ := unit_select w 'K' 'B'
    rw [h1, h2, h3]
    have := trimSuffix_append w ['K', 'B']
    simpa using this
  | MB =>
    refine parseSize_unit_case caseTable hcase n pre mid post v 'M' 'B' (1024 ^ 2) hpre hmid hpost
      hv (by decide) (by decide) hfit (by decide) ?_
    intro w
    obtain ⟨h1, h2, h3⟩ := unit_select w 'M' 'B'
    rw [h1, h2]
    have := trimSuffix_append w ['M', 'B']
    simpa using this
  | GB =>
    refine parseSize_unit_case caseTable hcase n pre mid post v 'G' 'B' (1024 ^ 3) hpre hmid hpost
      hv (by decide) (by decide) hfit (by decide) ?_
    intro w
    obtain ⟨h1, h2, h3⟩ := unit_select w 'G' 'B'
    rw [h1]
    have := trimSuffix_append w ['G', 'B']
    simpa using this

/-- Witness of C8: 500 megabytes, in mixed case and with white space. -/
theorem parseSize_decimal_unit_witness : parseSize id " 500 mB " = 524288000 :=
  parseSize_decimal_unit id (fun _ _ => rfl) 500 SizeUnit.MB [' '] [' '] [' '] ['m', 'B']
    (by decide) (by decide) (by decide) (by decide) (by decide)

/-! ## The retention predicate -/

theorem roundHalfEven_ge (y : ℚ) (m : ℤ) (h : (m : ℚ) ≤ y) : m ≤ roundHalfEven y := by
  have hf : m ≤ ⌊y⌋ := Int.le_floor.2 h
  unfold roundHalfEven
  simp only
  split_ifs <;> omega

theorem roundHalfEven_le (y : ℚ) (m : ℤ) (h : y ≤ (m : ℚ)) : roundHalfEven y ≤ m := by
  rcases eq_or_lt_of_le h with heq | hlt
  · subst heq
    unfold roundHalfEven
    simp
  · have hf : ⌊y⌋ < m := Int.floor_lt.2 hlt
    unfold roundHalfEven
    simp only
    split_ifs <;> omega

/-- Rounding to `float64` does not cross an integer, for arguments below `2 ^ 53`. -/
theorem float64_between (x : ℚ) (a b : ℤ) (h0 : 0 ≤ x) (h53 : x < 2 ^ 53)
    (ha : (a : ℚ) ≤ x) (hb : x ≤ (b : ℚ)) : (a : ℚ) ≤ float64 x ∧ float64 x ≤ (b : ℚ) := by
  unfold float64
  by_cases hx : x = 0
  · subst hx; simpa using And.intro ha hb
  · have hpos : 0 < x := lt_of_le_of_ne h0 (Ne.symm hx)
    have habs : |x| = x := abs_of_pos hpos
    have hneg : ¬ x < 0 := not_lt.2 h0
    simp only [hx, if_false, habs, hneg, one_mul]
    have he : Int.log 2 x < 53 := by
      have := (Int.lt_zpow_iff_log_lt (R := ℚ) (b := 2) (by norm_num) (x := 53) hpos).1
        (by rw [show ((53 : ℤ)) = ((53 : ℕ) : ℤ) from rfl, zpow_natCast]; exact_mod_cast h53)
      exact this
    obtain ⟨k, hk⟩ : ∃ k : ℕ, Int.log 2 x - 52 = -(k : ℤ) :=
      ⟨(52 - Int.log 2 x).toNat, by omega⟩
    rw [hk, zpow_neg, zpow_natCast]
    have h2 : (0 : ℚ) < 2 ^ k := by positivity
    rw [div_inv_eq_mul]
    constructor
    · have : ((a * 2 ^ k : ℤ) : ℚ) ≤ x * 2 ^ k := by
        push_cast
        exact mul_le_mul_of_nonneg_right ha h2.le
      have hr := roundHalfEven_ge _ _ this
      rw [le_mul_inv_iff₀ h2]
      exact_mod_cast hr
    · have : x * 2 ^ k ≤ ((b * 2 ^ k : ℤ) : ℚ) := by
        push_cast
        exact mul_le_mul_of_nonneg_right hb h2.le
      have hr := roundHalfEven_le _ _ this
      rw [mul_inv_le_iff₀ h2]
      exact_mod_cast hr

theorem float64_int (n : ℤ) (h0 : 0 ≤ n) (h : n < 2 ^ 53) : float64 (n : ℚ) = n := by
  have := float64_between (n : ℚ) n n (by exact_mod_cast h0) (by exact_mod_cast h) le_rfl le_rfl
  exact le_antisymm this.2 this.1

theorem retentionSeconds_bounds (W : Int) (hW : 0 < W) (hmax : W < 2 ^ 63) :
    W / Second ≤ retentionSeconds W ∧ retentionSeconds W ≤ W / Second + 1 ∧
      (W % Second = 0 → retentionSeconds W = W / Second) := by
  have hS : Second = 1000000000 := rfl
  have hsec0 : 0 ≤ W / Second := Int.ediv_nonneg hW.le (by rw [hS]; norm_num)
  have hsec1 : W / Second < 2 ^ 52 := by rw [hS]; omega
  have hns0 : 0 ≤ W % Second := Int.emod_nonneg _ (by rw [hS]; norm_num)
  have hns1 : W % Second < 1000000000 := by rw [hS]; omega
  unfold retentionSeconds Seconds
  simp only [Int.tdiv_eq_ediv hW.le (show (0 : Int) ≤ Second by rw [hS]; norm_num),
    Int.tmod_eq_emod hW.le (show (0 : Int) ≤ Second by rw [hS]; norm_num)]
  rw [float64_int _ hsec0 (by omega), float64_int _ hns0 (by omega)]
  have hq0 : (0 : ℚ) ≤ ((W % Second : ℤ) : ℚ) / 1000000000 := by
    apply div_nonneg (by exact_mod_cast hns0) (by norm_num)
  have hq1 : ((W % Second : ℤ) : ℚ) / 1000000000 ≤ 1 := by
    rw [div_le_one (by norm_num)]
    exact_mod_cast hns1.le
  have hq := float64_between _ 0 1 hq0 (lt_of_le_of_lt hq1 (by norm_num))
    (by simpa using hq0) (by simpa using hq1)
  simp only [Int.cast_zero, Int.cast_one] at hq
  have hsecq : ((W / Second : ℤ) : ℚ) < 2 ^ 52 := by exact_mod_cast hsec1
  have hsecq0 : (0 : ℚ) ≤ ((W / Second : ℤ) : ℚ) := by exact_mod_cast hsec0
  have hf := float64_between
    (((W / Second : ℤ) : ℚ) + float64 (((W % Second : ℤ) : ℚ) / 1000000000))
    (W / Second) (W / Second + 1) (by linarith) (by norm_num at hsecq ⊢; linarith)
    (by linarith) (by push_cast; linarith)
  have hfnn : (0 : ℚ) ≤
      float64 (((W / Second : ℤ) : ℚ) + float64 (((W % Second : ℤ) : ℚ) / 1000000000)) :=
    le_trans hsecq0 hf.1
  unfold truncToInt
  rw [if_pos hfnn]
  refine ⟨Int.le_floor.2 hf.1, ?_, ?_⟩
  · have := Int.floor_le
      (float64 (((W / Second : ℤ) : ℚ) + float64 (((W % Second : ℤ) : ℚ) / 1000000000)))
    have h2 := le_trans this hf.2
    exact_mod_cast h2
  · intro hz
    have hzero : float64 (((W % Second : ℤ) : ℚ) / 1000000000) = 0 := by
      rw [hz]; simp [float64]
    rw [hzero, add_zero, float64_int _ hsec0 (by omega), Int.floor_intCast]

theorem takeWhile_run (p : Char → Bool) (L R : List Char) (c : Char)
    (hL : ∀ d ∈ L, p d = true) (hc : p c = false) :
    (L ++ c :: R).takeWhile p = L ∧ (L ++ c :: R).dropWhile p = c :: R := by
  induction L with
  | nil => simp [List.takeWhile, List.dropWhile, hc]
  | cons d ds ih =>
    have hd : p d = true := hL d (List.mem_cons_self _ _)
    obtain ⟨i1, i2⟩ := ih (fun x hx => hL x (List.mem_cons_of_mem _ hx))
    simp [List.takeWhile, List.dropWhile, hd, i1, i2]

theorem cutSuffix_append (x s : List Char) : cutSuffix (x ++ s) s = some x := by
  unfold cutSuffix
  simp

theorem decimalValue_toDigits (n : Nat) : decimalValue (Nat.toDigits 10 n) = n := by
  induction n using Nat.strong_induction_on with
  | _ n ih =>
    by_cases hn : n < 10
    · rw [toDigits_small n hn]
      simp [decimalValue, digitChar_toNat n hn]
    · rw [toDigits_big n (by omega)]
      have h := ih (n / 10) (by omega)
      unfold decimalValue at h ⊢
      rw [List.foldl_append, h]
      simp only [List.foldl_cons, List.foldl_nil]
      rw [digitChar_toNat _ (Nat.mod_lt _ (by decide))]
      omega

theorem digits_isDigitB (n : Nat) : ∀ d ∈ Nat.toDigits 10 n, isDigitB d = true := by
  intro d hd
  have := (toDigits_spec n).2.1 d hd
  unfold isDigit at this
  simp [isDigitB, this.1, this.2]

/-- The store reads back, from the text `scheduleCleanup` builds, the number of seconds
that was interpolated. -/
theorem retentionOf_deleteStmt (W : Int) (t : String) (h : 0 ≤ retentionSeconds W) :
    retentionOf (deleteStmt W t) = some (retentionSeconds W).toNat := by
  obtain ⟨n, hn⟩ := Int.eq_ofNat_of_zero_le h
  have hs : toString (retentionSeconds W) = Nat.repr n := by rw [hn]; rfl
  have hdata : (deleteStmt W t).data =
      ((("DELETE FROM ".data ++ t.data) ++ " WHERE date < datetime('now', '-".data)
        ++ Nat.toDigits 10 n) ++ " seconds')".data := by
    simp only [deleteStmt, hs, String.data_append]
    rfl
  have hP : " WHERE date < datetime('now', '-".data
      = " WHERE date < datetime('now', '".data ++ ['-'] := by decide
  unfold retentionOf
  rw [hdata, cutSuffix_append]
  simp only
  have hrev : (("DELETE FROM ".data ++ t.data) ++ " WHERE date < datetime('now', '-".data
      ++ Nat.toDigits 10 n).reverse
      = (Nat.toDigits 10 n).reverse ++ '-' ::
        (("DELETE FROM ".data ++ t.data) ++ " WHERE date < datetime('now', '".data).reverse := by
    rw [hP]; simp
  obtain ⟨k1, k2⟩ := takeWhile_run isDigitB (Nat.toDigits 10 n).reverse
    (("DELETE FROM ".data ++ t.data) ++ " WHERE date < datetime('now', '".data).reverse '-'
    (fun d hd => digits_isDigitB n d (List.mem_reverse.1 hd)) (by decide)
  rw [hrev, k1, k2, List.reverse_reverse]
  have hhead : ('-' ::
      (("DELETE FROM ".data ++ t.data) ++ " WHERE date < datetime('now', '".data).reverse).reverse
      = ("DELETE FROM ".data ++ t.data) ++ " WHERE date < datetime('now', '-".data := by
    rw [hP]; simp
  rw [hhead, cutSuffix_append]
  simp only
  have htake : ("DELETE FROM ".data ++ t.data).take 12 = "DELETE FROM ".data := by
    rw [List.take_append_of_le_length (by decide)]
    rfl
  rw [if_pos ⟨htake, (toDigits_spec n).1⟩, decimalValue_toDigits, hn]
  rfl

/-- Claim C4: for every positive retention window `W` (an `int64` count of nanoseconds),
every current time and every catalog, each delete statement a cleanup cycle issues, the text
of source line 261 with its interpolated `int(W.Seconds())`, is read by the store as a
predicate that selects a row stamped `now - W - 1s` and does not select a row stamped
`now - W + 1s`; and the cycle issues that statement for each table of the catalog. -/
theorem retention_boundary {σ : Type} (w : World σ) (s : σ) (W sizeLimitBytes now : Int)
    (tables : List String) (hW : 0 < W) (hmax : W < 2 ^ 63)
    (hq : (w.Query s catalogStmt).2 = Except.ok tables) :
    (∀ c ∈ execs ((cleanupCycle W sizeLimitBytes).run w s).trace, c.1 ≠ "VACUUM;" →
      storeDeletes c.1 now (now - W - Second) = some true ∧
      storeDeletes c.1 now (now - W + Second) = some false) ∧
    (∀ t ∈ tables,
      (deleteStmt W t, []) ∈ execs ((cleanupCycle W sizeLimitBytes).run w s).trace ∧
      storeDeletes (deleteStmt W t) now (now - W - Second) = some true ∧
      storeDeletes (deleteStmt W t) now (now - W + Second) = some false) := by
  obtain ⟨h1, h2, h3⟩ := retentionSeconds_bounds W hW hmax
  have hS : Second = 1000000000 := rfl
  have hdiv := Int.emod_add_ediv W Second
  have hns0 : 0 ≤ W % Second := Int.emod_nonneg _ (by rw [hS]; norm_num)
  have hns1 : W % Second < Second := Int.emod_lt_of_pos _ (by rw [hS]; norm_num)
  have hsec0 : 0 ≤ W / Second := Int.ediv_nonneg hW.le (by rw [hS]; norm_num)
  have hK0 : 0 ≤ retentionSeconds W := le_trans hsec0 h1
  have hcast : (((retentionSeconds W).toNat : Nat) : Int) = retentionSeconds W :=
    Int.toNat_of_nonneg hK0
  have key : ∀ t : String,
      storeDeletes (deleteStmt W t) now (now - W - Second) = some true ∧
      storeDeletes (deleteStmt W t) now (now - W + Second) = some false := by
    intro t
    unfold storeDeletes
    rw [retentionOf_deleteStmt W t hK0]
    simp only [hcast, Option.some.injEq, decide_eq_true_eq, decide_eq_false_iff_not]
    rw [hS] at hdiv hns1 h1 h2 h3 ⊢
    constructor
    · by_cases hz : W % 1000000000 = 0
      · have := h3 hz
        omega
      · omega
    · omega
  have hdel := cleanupCycle_deletes w W sizeLimitBytes s tables hq
  constructor
  · intro c hc hne
    have hmem : c ∈ (execs ((cleanupCycle W sizeLimitBytes).run w s).trace).filter
        (fun c => c.1 ≠ "VACUUM;") := by
      rw [List.mem_filter]
      exact ⟨hc, by simpa using hne⟩
    rw [hdel] at hmem
    obtain ⟨t, _, rfl⟩ := List.mem_map.1 hmem
    exact key t
  · intro t ht
    refine ⟨?_, key t⟩
    have hmem : (deleteStmt W t, ([] : List Arg)) ∈
        tables.map (fun t => (deleteStmt W t, ([] : List Arg))) :=
      List.mem_map.2 ⟨t, ht, rfl⟩
    rw [← hdel] at hmem
    exact (List.mem_filter.1 hmem).1

/-- Witness of C4: the default window of 24 hours and a catalog of two tables. -/
theorem retention_boundary_witness :
    storeDeletes (deleteStmt (24 * Hour) "events") 1700000000000000000
        (1700000000000000000 - 24 * Hour - Second) = some true ∧
      storeDeletes (deleteStmt (24 * Hour) "events") 1700000000000000000
        (1700000000000000000 - 24 * Hour + Second) = some false :=
  ((retention_boundary (fixedWorld [] ["events", "logs"] 5) () (24 * Hour) 100
    1700000000000000000 ["events", "logs"] (by decide) (by decide) (by rfl)).2 "events"
    (by decide)).2

/-! ## Start-up configuration -/

theorem parseSize_ascii (caseTable : Char → Char) (s : String)
    (h : ∀ c ∈ (TrimSpace s).data, c.toNat ≤ 0x7F) : parseSize caseTable s = parseSize id s := by
  have e : ToUpper caseTable (TrimSpace s) = ToUpper id (TrimSpace s) := by
    unfold ToUpper
    congr 1
    apply List.map_congr_left
    intro c hc
    unfold unicodeToUpper
    rw [if_pos (h c hc), if_pos (h c hc)]
  unfold parseSize
  rw [e]

/-- Claim C7 fails on the code: a value of SIZE_LIMIT whose number is out of the int64
range does not give the default of 1 GiB.  `strconv.ParseInt` returns the nearest int64
together with its range error, the error is dropped, and the limit in force is 2^63 - 1
bytes, or -1024 bytes with the suffix KB. -/
theorem configSizeLimit_out_of_range (caseTable : Char → Char) :
    (ParseInt "9223372036854775808").2 = some NumError.ErrRange ∧
    configSizeLimit caseTable (some "9223372036854775808") = 9223372036854775807 ∧
    configSizeLimit caseTable (some "9223372036854775808KB") = -1024 ∧
    configSizeLimit caseTable (some "9223372036854775808") ≠ 1 * 1024 * 1024 * 1024 := by
  have h1 : parseSize caseTable "9223372036854775808" = 9223372036854775807 := by
    rw [parseSize_ascii caseTable _ (by decide)]
    decide
  have h2 : parseSize caseTable "9223372036854775808KB" = -1024 := by
    rw [parseSize_ascii caseTable _ (by decide)]
    decide
  refine ⟨by decide, ?_, ?_, ?_⟩
  · simp [configSizeLimit, Getenv, h1]
  · simp [configSizeLimit, Getenv, h2]
  · simp [configSizeLimit, Getenv, h1]

theorem configSizeLimit_unset (caseTable : Char → Char) :
    configSizeLimit caseTable none = 1073741824 := by
  rfl

theorem configCleanupInterval_default (parseDuration : String → Except String Int)
    (env : Option String)
    (h : env = none ∨ env = some "" ∨
      ∃ ci err, env = some ci ∧ parseDuration ci = Except.error err) :
    configCleanupInterval parseDuration env = 24 * Hour := by
  rcases h with rfl | rfl | ⟨ci, err, rfl, he⟩
  · rfl
  · rfl
  · unfold configCleanupInterval Getenv
    simp [he]

theorem parseInt_syntax_zero (s : String) (h : (ParseInt s).2 = some NumError.ErrSyntax) :
    (ParseInt s).1 = 0 := by
  unfold ParseInt at h ⊢
  split
  · rfl
  · rename_i c cs hs
    rw [hs] at h
    simp only at h ⊢
    split
    · rfl
    · rename_i un e hne hu
      rw [hu] at h
      simp only at h
      split_ifs at h with h1 h2 <;> simp at h

end GoSqliteServer
